import Mathlib

/-!
Verification of the Go INI parser package (package iniparser).

The embedding models Go strings as lists of characters (the inputs of every
claim are ASCII, so bytes and runes coincide).  Each definition below is a
direct translation of the correspondingly named Go function of the source
file: the line classifier (isEmptyLine, isSection, isProperity, isComment,
lineType), the decoders (parseSection, parseProperity), the document parser
(parse, built on strings.Split by newline), the accessors (Get, Set) and the
serializer (String, here called render).

Two aspects of Go need explicit modelling:

* Failure values: Go functions returning (T, error) become Except values.
* Runtime aborts: isSection indexes line[0] of the whitespace-trimmed line;
  on a non-empty all-whitespace line the trimmed string is empty and Go
  aborts with an index-out-of-range error.  The classifier therefore returns
  an Option (none = abort), and the parser result type has a dedicated
  crash constructor for inputs on which the Go program does not return.
* Go maps: the section map and the per-section key map are modelled as
  association lists with replace-or-append update (assocSet), which fixes
  one iteration order where Go leaves it unspecified; all order-sensitive
  statements below are either order-independent or concern this fixed order.
-/

namespace Ini

/-- GoStr models a Go string as a list of characters. -/
abbrev GoStr := List Char

/-- Whitespace test matching unicode.IsSpace on the ASCII range, as used by
strings.TrimSpace. -/
def isSpaceChar (c : Char) : Bool :=
  c == ' ' || c == '\t' || c == '\n' || c == '\x0b' || c == '\x0c' || c == '\r'

/-- dropWhileR drops the matching suffix; building block of the right trims. -/
def dropWhileR (p : Char → Bool) (s : GoStr) : GoStr :=
  (s.reverse.dropWhile p).reverse

/-- trimLeftSpace models strings.TrimLeft(s, whitespace). -/
def trimLeftSpace (s : GoStr) : GoStr := s.dropWhile isSpaceChar

/-- trimRightSpace models strings.TrimRight(s, whitespace). -/
def trimRightSpace (s : GoStr) : GoStr := dropWhileR isSpaceChar s

/-- trimSpace models strings.TrimSpace. -/
def trimSpace (s : GoStr) : GoStr := trimRightSpace (trimLeftSpace s)

/-- Membership test for the cutset of TrimLeft(s, " [") in parseSection. -/
def inCutL (c : Char) : Bool := c == ' ' || c == '['

/-- Membership test for the cutset of TrimRight(s, " ]") in parseSection. -/
def inCutR (c : Char) : Bool := c == ' ' || c == ']'

/-- eqIdx c s models strings.Index for a one-character separator: the index
of the first occurrence of c in s.  Go returns -1 when c is absent; this
model returns s.length instead, and the only caller (parseProperity) is
reached exclusively on lines that contain the separator. -/
def eqIdx (c : Char) : GoStr → Nat
  | [] => 0
  | x :: xs => if x = c then 0 else eqIdx c xs + 1

/-- splitLines models strings.Split(s, newline); on the empty string it
returns one empty piece, as strings.Split does. -/
def splitLines : GoStr → List GoStr
  | [] => [[]]
  | c :: rest =>
    if c = '\n' then [] :: splitLines rest
    else
      match splitLines rest with
      | [] => [[c]]
      | l :: ls => (c :: l) :: ls

/-- LineType lists the five classification constants of the source
(sectionLine, properityLine, commentLine, emptyLine, unsportedLine). -/
inductive LineType where
  | sectionLine
  | propertyLine
  | commentLine
  | emptyLine
  | unsportedLine
deriving DecidableEq

/-- IniErr enumerates the sentinel error values of the package.  The
constructor invalidLineErr models ErrSyntaxError, globalProperity models
ErrGlobalProperity; the remaining names match their Go counterparts. -/
inductive IniErr where
  | invalidFilePath
  | nullReference
  | sectionNotExist
  | keyNotExist
  | hasNoData
  | globalProperity
  | emptySectionName
  | invalidLineErr
  | emptyKey
deriving DecidableEq

/-- isSection trims the line, then reads its first and last character and
counts brackets.  Go indexes trimmed[0]: on an empty trimmed string this is
an out-of-range abort, modelled as none. -/
def isSection (line : GoStr) : Option Bool :=
  match trimSpace line with
  | [] => none
  | c :: rest =>
    some (c = '[' && (c :: rest).getLast? = some ']' &&
      (c :: rest).count '[' = 1 && (c :: rest).count ']' = 1)

/-- isProperity tests that the line contains exactly one separator, as
strings.Count(line, eq) == 1 does. -/
def isProperity (line : GoStr) : Bool := line.count '=' = 1

/-- isComment tests the first character; its caller guarantees a non-empty
line (Go would abort on an empty one). -/
def isComment (line : GoStr) : Bool := line.head? = some ';'

/-- isEmptyLine tests len(line) == 0 || line[0] == newline; the indexing is
safe in Go because the disjunction short-circuits. -/
def isEmptyLine (line : GoStr) : Bool :=
  line.isEmpty || line.head? = some '\n'

/-- lineType classifies one line, testing the categories in the source's
order: empty, section, property, comment, otherwise unsupported.  The
result is none exactly when the isSection call aborts. -/
def lineType (line : GoStr) : Option LineType :=
  if isEmptyLine line then some .emptyLine
  else
    match isSection line with
    | none => none
    | some true => some .sectionLine
    | some false =>
      if isProperity line then some .propertyLine
      else if isComment line then some .commentLine
      else some .unsportedLine

/-- parseSection decodes a line already classified as a section header:
reject raw length exactly 2, otherwise slice off the outer characters and
trim the cutsets of space-or-open-bracket on the left and
space-or-close-bracket on the right. -/
def parseSection (sLine : GoStr) : Except IniErr GoStr :=
  if sLine.length = 2 then .error .emptySectionName
  else .ok (dropWhileR inCutR (((sLine.drop 1).dropLast).dropWhile inCutL))

/-- parseProperity decodes a property line: split at the first separator,
reject a length-zero raw key (the emptiness test precedes the trimming, as
in the source), then trim key and value. -/
def parseProperity (property : GoStr) : Except IniErr (GoStr × GoStr) :=
  if (property.take (eqIdx '=' property)).length = 0 then .error .emptyKey
  else .ok (trimSpace (property.take (eqIdx '=' property)),
      trimSpace (property.drop (eqIdx '=' property + 1)))

/-- Section is a map from keys to values, modelled as an association list. -/
abbrev Section := List (GoStr × GoStr)

/-- Sections is the map from section names to sections. -/
abbrev Sections := List (GoStr × Section)

/-- assocFind models a Go map read m[k] returning an Option. -/
def assocFind (k : GoStr) : List (GoStr × α) → Option α
  | [] => none
  | (k', v) :: rest => if k' = k then some v else assocFind k rest

/-- assocSet models a Go map write m[k] = v: replace the existing binding,
or append a fresh one. -/
def assocSet (k : GoStr) (v : α) : List (GoStr × α) → List (GoStr × α)
  | [] => [(k, v)]
  | (k', v') :: rest =>
    if k' = k then (k, v) :: rest else (k', v') :: assocSet k v rest

/-- ParseResult is the outcome of the parse loop: a document with no error,
a partial document with the first error, or a crash for inputs on which the
Go code aborts at runtime and returns nothing. -/
inductive ParseResult where
  | ok (doc : Sections)
  | fail (doc : Sections) (e : IniErr)
  | crash
deriving DecidableEq

/-- parseLines is the line loop of the source's parse: one case per line
class, carrying the current section name and the document built so far.
A property write into a missing section (a write to a nil inner map in Go)
is a crash; within parse it is unreachable, because a non-empty current
name is always installed first. -/
def parseLines : List GoStr → GoStr → Sections → ParseResult
  | [], _, doc => .ok doc
  | line :: rest, cur, doc =>
    match lineType line with
    | none => .crash
    | some .sectionLine =>
      match parseSection line with
      | .error e => .fail doc e
      | .ok name => parseLines rest name (assocSet name [] doc)
    | some .propertyLine =>
      match parseProperity line with
      | .error e => .fail doc e
      | .ok (k, v) =>
        if cur = [] then .fail doc .globalProperity
        else
          match assocFind cur doc with
          | none => .crash
          | some sec => parseLines rest cur (assocSet cur (assocSet k v sec) doc)
    | some .commentLine => parseLines rest cur doc
    | some .emptyLine => parseLines rest cur doc
    | some .unsportedLine => .fail doc .invalidLineErr

/-- parse splits the input on newlines and folds the loop from an empty
current section name and an empty document, as the source's parse does. -/
def parse (iniData : GoStr) : ParseResult :=
  parseLines (splitLines iniData) [] []

/-- get models the accessor Get: nil map, then missing section, then
missing key, then the stored value. -/
def get (sections : Option Sections) (name k : GoStr) : Except IniErr GoStr :=
  match sections with
  | none => .error .nullReference
  | some doc =>
    match assocFind name doc with
    | none => .error .sectionNotExist
    | some sec =>
      match assocFind k sec with
      | none => .error .keyNotExist
      | some v => .ok v

/-- set models the mutator Set, returning the updated section map in place
of Go's in-place write; it fails exactly as Get does and never creates a
binding. -/
def set (sections : Option Sections) (name k v : GoStr) :
    Except IniErr Sections :=
  match sections with
  | none => .error .nullReference
  | some doc =>
    match assocFind name doc with
    | none => .error .sectionNotExist
    | some sec =>
      match assocFind k sec with
      | none => .error .keyNotExist
      | some _ => .ok (assocSet name (assocSet k v sec) doc)

/-- renderSection prints one section as the serializer does: a bracketed
name line, then one line per key of the shape key-space-eq-space-value. -/
def renderSection (name : GoStr) (sec : Section) : GoStr :=
  '[' :: name ++ ']' :: '\n' ::
    (sec.map (fun kv => kv.1 ++ ' ' :: '=' :: ' ' :: kv.2 ++ ['\n'])).flatten

/-- renderDoc concatenates the printed sections in the model's order (Go
iterates its map in an unspecified order). -/
def renderDoc (doc : Sections) : GoStr :=
  (doc.map (fun ns => renderSection ns.1 ns.2)).flatten

/-- render models the method String: nil map and empty map are errors,
otherwise the concatenation of the printed sections. -/
def render (sections : Option Sections) : Except IniErr GoStr :=
  match sections with
  | none => .error .nullReference
  | some doc =>
    if doc = [] then .error .hasNoData
    else .ok (renderDoc doc)

instance : DecidableEq (Except IniErr GoStr) := fun a b =>
  match a, b with
  | .ok x, .ok y => decidable_of_iff (x = y) (by simp)
  | .error x, .error y => decidable_of_iff (x = y) (by simp)
  | .ok _, .error _ => .isFalse (by simp)
  | .error _, .ok _ => .isFalse (by simp)

instance : DecidableEq (Except IniErr (GoStr × GoStr)) := fun a b =>
  match a, b with
  | .ok x, .ok y => decidable_of_iff (x = y) (by simp)
  | .error x, .error y => decidable_of_iff (x = y) (by simp)
  | .ok _, .error _ => .isFalse (by simp)
  | .error _, .ok _ => .isFalse (by simp)

instance : DecidableEq (Except IniErr Sections) := fun a b =>
  match a, b with
  | .ok x, .ok y => decidable_of_iff (x = y) (by simp)
  | .error x, .error y => decidable_of_iff (x = y) (by simp)
  | .ok _, .error _ => .isFalse (by simp)
  | .error _, .ok _ => .isFalse (by simp)

/-! Generic helper lemmas about dropWhile from both ends, the trims, counts
and the association-list operations.  None of them mention the parser. -/

theorem head?_dropWhile_false {p : Char → Bool} {l : GoStr} {c : Char}
    (h : (l.dropWhile p).head? = some c) : p c = false := by
  have := List.head?_dropWhile_not p l
  rw [h] at this
  exact this

theorem dropWhile_eq_self_of_head {p : Char → Bool} {l : GoStr}
    (h : ∀ c, l.head? = some c → p c = false) : l.dropWhile p = l := by
  cases l with
  | nil => rfl
  | cons c rest => simp [List.dropWhile, h c rfl]

theorem dropWhile_append_of_all {p : Char → Bool} {l₁ : GoStr} (l₂ : GoStr)
    (h : ∀ c ∈ l₁, p c = true) :
    (l₁ ++ l₂).dropWhile p = l₂.dropWhile p := by
  rw [List.dropWhile_append]
  simp [List.dropWhile_eq_nil_iff.2 h]

theorem dropWhile_append_of_ne_nil {p : Char → Bool} {l₁ : GoStr} (l₂ : GoStr)
    (h : l₁.dropWhile p ≠ []) :
    (l₁ ++ l₂).dropWhile p = l₁.dropWhile p ++ l₂ := by
  rw [List.dropWhile_append]
  simp [List.isEmpty_iff, h]

theorem dropWhileR_eq_nil_iff {p : Char → Bool} {l : GoStr} :
    dropWhileR p l = [] ↔ ∀ c ∈ l, p c = true := by
  simp [dropWhileR, List.dropWhile_eq_nil_iff]

theorem getLast?_dropWhileR_false {p : Char → Bool} {l : GoStr} {c : Char}
    (h : (dropWhileR p l).getLast? = some c) : p c = false := by
  have h' : ((l.reverse.dropWhile p).reverse).getLast? = some c := h
  rw [List.getLast?_reverse] at h'
  exact head?_dropWhile_false h'

theorem dropWhileR_eq_self_of_last {p : Char → Bool} {l : GoStr}
    (h : ∀ c, l.getLast? = some c → p c = false) : dropWhileR p l = l := by
  have : l.reverse.dropWhile p = l.reverse := by
    apply dropWhile_eq_self_of_head
    intro c hc
    exact h c (by rwa [List.head?_reverse] at hc)
  simp [dropWhileR, this]

theorem dropWhileR_append_of_all {p : Char → Bool} (l₁ : GoStr) {l₂ : GoStr}
    (h : ∀ c ∈ l₂, p c = true) :
    dropWhileR p (l₁ ++ l₂) = dropWhileR p l₁ := by
  unfold dropWhileR
  rw [List.reverse_append, dropWhile_append_of_all _ (by simpa using h)]

theorem dropWhileR_append_of_ne_nil (l₁ : GoStr) {p : Char → Bool} {l₂ : GoStr}
    (h : dropWhileR p l₂ ≠ []) :
    dropWhileR p (l₁ ++ l₂) = l₁ ++ dropWhileR p l₂ := by
  unfold dropWhileR at *
  rw [List.reverse_append, dropWhile_append_of_ne_nil _ (by simpa using h)]
  simp

theorem dropWhileR_decomp (p : Char → Bool) (l : GoStr) :
    ∃ sp, l = dropWhileR p l ++ sp ∧ ∀ c ∈ sp, p c = true := by
  refine ⟨(l.reverse.takeWhile p).reverse, ?_, ?_⟩
  · conv_lhs => rw [← List.reverse_reverse l,
      ← List.takeWhile_append_dropWhile p l.reverse]
    rw [List.reverse_append]
    rfl
  · intro c hc
    exact List.mem_takeWhile_imp (by simpa using hc)

theorem dropWhile_decomp (p : Char → Bool) (l : GoStr) :
    ∃ sp, l = sp ++ l.dropWhile p ∧ ∀ c ∈ sp, p c = true := by
  refine ⟨l.takeWhile p, by rw [List.takeWhile_append_dropWhile], ?_⟩
  intro c hc
  exact List.mem_takeWhile_imp hc

theorem dropWhileR_sublist (p : Char → Bool) (l : GoStr) :
    (dropWhileR p l).Sublist l := by
  obtain ⟨sp, hl, -⟩ := dropWhileR_decomp p l
  conv_rhs => rw [hl]
  exact (dropWhileR p l).sublist_append_left sp

theorem trimSpace_sublist (l : GoStr) : (trimSpace l).Sublist l :=
  ((dropWhileR_sublist _ _).trans (List.dropWhile_sublist _)
    : (trimSpace l).Sublist l)

theorem mem_of_mem_trimSpace {c : Char} {l : GoStr} (h : c ∈ trimSpace l) :
    c ∈ l := (trimSpace_sublist l).mem h

theorem trimSpace_eq_nil_iff {l : GoStr} :
    trimSpace l = [] ↔ ∀ c ∈ l, isSpaceChar c = true := by
  constructor
  · intro h c hc
    obtain ⟨pre, hl, hpre⟩ := dropWhile_decomp isSpaceChar l
    have h2 := dropWhileR_eq_nil_iff.1 h
    rw [hl] at hc
    rcases List.mem_append.1 hc with h3 | h3
    · exact hpre c h3
    · exact h2 c h3
  · intro h
    apply dropWhileR_eq_nil_iff.2
    intro c hc
    exact h c ((List.dropWhile_sublist _).mem hc)

theorem trimSpace_head_false {l : GoStr} {c : Char}
    (h : (trimSpace l).head? = some c) : isSpaceChar c = false := by
  unfold trimSpace trimRightSpace trimLeftSpace at h
  obtain ⟨sp, hd, -⟩ := dropWhileR_decomp isSpaceChar (l.dropWhile isSpaceChar)
  have hne : dropWhileR isSpaceChar (l.dropWhile isSpaceChar) ≠ [] := by
    intro h0; rw [h0] at h; simp at h
  apply @head?_dropWhile_false isSpaceChar l c
  rw [hd, List.head?_append]
  cases h0 : (dropWhileR isSpaceChar (l.dropWhile isSpaceChar)).head? with
  | none => exact absurd (List.head?_eq_none_iff.1 h0) hne
  | some d => rw [h0] at h; simpa [h0] using h

theorem trimSpace_last_false {l : GoStr} {c : Char}
    (h : (trimSpace l).getLast? = some c) : isSpaceChar c = false :=
  getLast?_dropWhileR_false h

theorem trimLeft_eq_self_of_trimmed {l : GoStr} (h : trimSpace l = l) :
    l.dropWhile isSpaceChar = l := by
  apply dropWhile_eq_self_of_head
  intro c hc
  exact trimSpace_head_false (by rw [h]; exact hc)

theorem trimRight_eq_self_of_trimmed {l : GoStr} (h : trimSpace l = l) :
    dropWhileR isSpaceChar l = l := by
  apply dropWhileR_eq_self_of_last
  intro c hc
  exact trimSpace_last_false (by rw [h]; exact hc)

theorem trimSpace_idem (l : GoStr) : trimSpace (trimSpace l) = trimSpace l := by
  have h1 : trimLeftSpace (trimSpace l) = trimSpace l :=
    dropWhile_eq_self_of_head (fun c hc => trimSpace_head_false hc)
  have h2 : trimRightSpace (trimSpace l) = trimSpace l :=
    dropWhileR_eq_self_of_last (fun c hc => trimSpace_last_false hc)
  show trimRightSpace (trimLeftSpace (trimSpace l)) = trimSpace l
  rw [h1, h2]

theorem trimSpace_append_all {s sp : GoStr}
    (h : ∀ c ∈ sp, isSpaceChar c = true) :
    trimSpace (s ++ sp) = trimSpace s := by
  unfold trimSpace trimRightSpace trimLeftSpace
  by_cases h0 : s.dropWhile isSpaceChar = []
  · rw [List.dropWhile_append, h0]
    simp only [List.isEmpty_nil, if_true]
    rw [List.dropWhile_eq_nil_iff.2 h]
  · rw [dropWhile_append_of_ne_nil _ h0, dropWhileR_append_of_all _ h]

theorem trimSpace_prepend_all {s sp : GoStr}
    (h : ∀ c ∈ sp, isSpaceChar c = true) :
    trimSpace (sp ++ s) = trimSpace s := by
  unfold trimSpace trimRightSpace trimLeftSpace
  rw [dropWhile_append_of_all _ h]

/-! Association list lemmas. -/

theorem assocFind_assocSet_self {α : Type} (k : GoStr) (v : α)
    (l : List (GoStr × α)) : assocFind k (assocSet k v l) = some v := by
  induction l with
  | nil => simp [assocFind, assocSet]
  | cons p rest ih =>
    obtain ⟨a, b⟩ := p
    by_cases h : a = k
    · simp [assocSet, assocFind, h]
    · simp [assocSet, assocFind, h, ih]

theorem assocFind_assocSet_ne {α : Type} {k' k : GoStr} (v : α)
    (l : List (GoStr × α)) (h : k' ≠ k) :
    assocFind k' (assocSet k v l) = assocFind k' l := by
  have h' : ¬(k = k') := fun hh => h hh.symm
  induction l with
  | nil => simp [assocFind, assocSet, h']
  | cons p rest ih =>
    obtain ⟨a, b⟩ := p
    by_cases h1 : a = k
    · simp [assocSet, assocFind, h1, h']
    · by_cases h2 : a = k'
      · simp [assocSet, assocFind, h1, h2, h]
      · simp [assocSet, assocFind, h1, h2, ih]

theorem assocSet_keys_mem {α : Type} {k : GoStr} (v : α)
    {l : List (GoStr × α)} (h : k ∈ l.map Prod.fst) :
    (assocSet k v l).map Prod.fst = l.map Prod.fst := by
  induction l with
  | nil => simp at h
  | cons p rest ih =>
    obtain ⟨a, b⟩ := p
    by_cases h1 : a = k
    · simp [assocSet, h1]
    · have h2 : k ∈ rest.map Prod.fst := by
        rw [List.map_cons] at h
        rcases List.mem_cons.1 h with h3 | h3
        · exact absurd h3.symm h1
        · exact h3
      simp [assocSet, h1, ih h2]

theorem assocSet_keys_not_mem {α : Type} {k : GoStr} (v : α)
    {l : List (GoStr × α)} (h : k ∉ l.map Prod.fst) :
    assocSet k v l = l ++ [(k, v)] := by
  induction l with
  | nil => simp [assocSet]
  | cons p rest ih =>
    obtain ⟨a, b⟩ := p
    have h1 : ¬(a = k) := by
      intro hh
      apply h
      rw [List.map_cons, hh]
      exact List.mem_cons_self _ _
    have h2 : k ∉ rest.map Prod.fst := by
      intro hh
      apply h
      rw [List.map_cons]
      exact List.mem_cons_of_mem _ hh
    simp [assocSet, h1, ih h2]

theorem assocSet_nodup {α : Type} {k : GoStr} (v : α)
    {l : List (GoStr × α)} (h : (l.map Prod.fst).Nodup) :
    ((assocSet k v l).map Prod.fst).Nodup := by
  by_cases h1 : k ∈ l.map Prod.fst
  · rwa [assocSet_keys_mem v h1]
  · rw [assocSet_keys_not_mem v h1]
    simp only [List.map_append, List.map_cons, List.map_nil]
    rw [List.nodup_append]
    refine ⟨h, List.nodup_singleton _, ?_⟩
    intro a ha hk
    apply h1
    have : a = k := by simpa using hk
    exact this ▸ ha

theorem mem_assocSet {α : Type} {k : GoStr} {v : α}
    {l : List (GoStr × α)} {kv : GoStr × α} (h : kv ∈ assocSet k v l) :
    kv = (k, v) ∨ kv ∈ l := by
  induction l with
  | nil => simpa [assocSet] using h
  | cons p rest ih =>
    obtain ⟨a, b⟩ := p
    by_cases h1 : a = k
    · rcases (by simpa [assocSet, h1] using h : kv = (k, v) ∨ kv ∈ rest) with h2 | h2
      · exact .inl h2
      · exact .inr (by simp [h2])
    · rcases (by simpa [assocSet, h1] using h :
        kv = (a, b) ∨ kv ∈ assocSet k v rest) with h2 | h2
      · exact .inr (by simp [h2])
      · rcases ih h2 with h3 | h3
        · exact .inl h3
        · exact .inr (by simp [h3])

theorem assocFind_mem {α : Type} {k : GoStr} {v : α}
    {l : List (GoStr × α)} (h : assocFind k l = some v) : (k, v) ∈ l := by
  induction l with
  | nil => simp [assocFind] at h
  | cons p rest ih =>
    obtain ⟨a, b⟩ := p
    by_cases h1 : a = k
    · have hb : b = v := by simpa [assocFind, h1] using h
      subst h1
      subst hb
      exact List.mem_cons_self _ _
    · exact List.mem_cons_of_mem _ (ih (by simpa [assocFind, h1] using h))

theorem assocFind_append_not_mem {α : Type} {k : GoStr}
    {pre : List (GoStr × α)} (rest : List (GoStr × α))
    (h : k ∉ pre.map Prod.fst) :
    assocFind k (pre ++ rest) = assocFind k rest := by
  induction pre with
  | nil => rfl
  | cons p pre' ih =>
    obtain ⟨a, b⟩ := p
    have h1 : ¬(a = k) := by
      intro hh
      apply h
      rw [List.map_cons, hh]
      exact List.mem_cons_self _ _
    have h2 : k ∉ pre'.map Prod.fst := by
      intro hh
      apply h
      rw [List.map_cons]
      exact List.mem_cons_of_mem _ hh
    simp only [List.cons_append, assocFind, if_neg h1]
    exact ih h2

theorem assocSet_append_not_mem_mid {α : Type} {k : GoStr} (v w : α)
    {pre : List (GoStr × α)} (suf : List (GoStr × α))
    (h : k ∉ pre.map Prod.fst) :
    assocSet k v (pre ++ (k, w) :: suf) = pre ++ (k, v) :: suf := by
  induction pre with
  | nil => simp [assocSet]
  | cons p pre' ih =>
    obtain ⟨a, b⟩ := p
    have h1 : ¬(a = k) := by
      intro hh
      apply h
      rw [List.map_cons, hh]
      exact List.mem_cons_self _ _
    have h2 : k ∉ pre'.map Prod.fst := by
      intro hh
      apply h
      rw [List.map_cons]
      exact List.mem_cons_of_mem _ hh
    simp [assocSet, h1, ih h2]

/-! Lemmas about the separator count, the classifier and the decoders. -/

theorem count_one_decomp {c : Char} {l : GoStr} (h : l.count c = 1) :
    ∃ a b, l = a ++ c :: b ∧ c ∉ a ∧ c ∉ b := by
  induction l with
  | nil => simp at h
  | cons x xs ih =>
    rw [List.count_cons] at h
    by_cases hx : x = c
    · subst hx
      have h0 : xs.count x = 0 := by
        simp at h
        omega
      refine ⟨[], xs, by simp, by simp, ?_⟩
      exact List.count_eq_zero.1 h0
    · have h' : xs.count c = 1 := by
        simp [hx] at h
        exact h
      obtain ⟨a, b, hl, ha, hb⟩ := ih h'
      refine ⟨x :: a, b, by simp [hl], ?_, hb⟩
      intro hmem
      rcases List.mem_cons.1 hmem with h2 | h2
      · exact hx h2.symm
      · exact ha h2

theorem eqIdx_append {c : Char} {a : GoStr} (b : GoStr) (h : c ∉ a) :
    eqIdx c (a ++ c :: b) = a.length := by
  induction a with
  | nil => simp [eqIdx]
  | cons x xs ih =>
    have hx : ¬(x = c) := by
      intro hh
      exact h (by simp [hh])
    have h2 : c ∉ xs := by
      intro hh
      exact h (by simp [hh])
    simp [eqIdx, hx, ih h2]

theorem drop_len_succ_append (a : GoStr) (x : Char) (b : GoStr) :
    (a ++ x :: b).drop (a.length + 1) = b := by
  have h1 : a ++ x :: b = (a ++ [x]) ++ b := by simp
  have h2 : a.length + 1 = (a ++ [x]).length := by simp
  rw [h1, h2, List.drop_left]

theorem parseProperity_split {a : GoStr} (b : GoStr) (h : '=' ∉ a) :
    parseProperity (a ++ '=' :: b) =
      if a = [] then .error .emptyKey
      else .ok (trimSpace a, trimSpace b) := by
  unfold parseProperity
  rw [eqIdx_append b h, List.take_left, drop_len_succ_append]
  simp only [List.length_eq_zero]

theorem isSection_of_trim_nil {line : GoStr} (ht : trimSpace line = []) :
    isSection line = none := by
  unfold isSection
  rw [ht]

theorem isSection_of_trim_cons {line : GoStr} {c : Char} {rest : GoStr}
    (ht : trimSpace line = c :: rest) :
    isSection line = some (c = '[' && (c :: rest).getLast? = some ']' &&
      (c :: rest).count '[' = 1 && (c :: rest).count ']' = 1) := by
  unfold isSection
  rw [ht]

theorem isSection_eq_true {line : GoStr}
    (h1 : (trimSpace line).head? = some '[')
    (h2 : (trimSpace line).getLast? = some ']')
    (h3 : (trimSpace line).count '[' = 1)
    (h4 : (trimSpace line).count ']' = 1) :
    isSection line = some true := by
  cases ht : trimSpace line with
  | nil =>
    rw [ht] at h1
    simp at h1
  | cons c rest =>
    rw [ht] at h1 h2 h3 h4
    have hc : c = '[' := by simpa using h1
    rw [isSection_of_trim_cons ht, h2, h3, h4, hc]
    simp

theorem lineType_section_elim {line : GoStr}
    (h : lineType line = some .sectionLine) : isSection line = some true := by
  unfold lineType at h
  by_cases h1 : isEmptyLine line
  · simp [h1] at h
  · rw [if_neg h1] at h
    cases h2 : isSection line with
    | none =>
      rw [h2] at h
      simp at h
    | some bb =>
      rw [h2] at h
      cases bb with
      | true => rfl
      | false =>
        have h' : (if isProperity line then some LineType.propertyLine
            else if isComment line then some LineType.commentLine
            else some LineType.unsportedLine) = some LineType.sectionLine := h
        by_cases h3 : isProperity line
        · simp [h3] at h'
        · by_cases h4 : isComment line
          · simp [h3, h4] at h'
          · simp [h3, h4] at h'

theorem lineType_property_elim {line : GoStr}
    (h : lineType line = some .propertyLine) :
    isSection line = some false ∧ line.count '=' = 1 := by
  unfold lineType at h
  by_cases h1 : isEmptyLine line
  · simp [h1] at h
  · rw [if_neg h1] at h
    cases h2 : isSection line with
    | none =>
      rw [h2] at h
      simp at h
    | some bb =>
      rw [h2] at h
      cases bb with
      | true => simp at h
      | false =>
        have h' : (if isProperity line then some LineType.propertyLine
            else if isComment line then some LineType.commentLine
            else some LineType.unsportedLine) = some LineType.propertyLine := h
        by_cases h3 : isProperity line
        · exact ⟨rfl, by simpa [isProperity] using h3⟩
        · by_cases h4 : isComment line
          · simp [h3, h4] at h'
          · simp [h3, h4] at h'

theorem lineType_eq_section_of {line : GoStr} (h1 : isEmptyLine line = false)
    (h2 : isSection line = some true) : lineType line = some .sectionLine := by
  unfold lineType
  rw [if_neg (by simp [h1]), h2]

theorem lineType_eq_property_of {line : GoStr} (h1 : isEmptyLine line = false)
    (h2 : isSection line = some false) (h3 : isProperity line = true) :
    lineType line = some .propertyLine := by
  unfold lineType
  rw [if_neg (by simp [h1]), h2]
  simp [h3]

/-! Shape invariants of decoded names and key/value pairs, used by the
round-trip theorem. -/

/-- nameOK records what parseSection guarantees about a decoded name: no
newline, and no leading space or open bracket, no trailing space or close
bracket. -/
def nameOK (n : GoStr) : Prop :=
  '\n' ∉ n ∧ (∀ c, n.head? = some c → c ≠ ' ' ∧ c ≠ '[') ∧
    (∀ c, n.getLast? = some c → c ≠ ' ' ∧ c ≠ ']')

/-- kvOK records what parseProperity guarantees about a decoded pair on a
line that was classified property (hence not a section): no newline, no
separator, both trimmed, and not of the bracket shape that would make the
re-rendered line a section header. -/
def kvOK (k v : GoStr) : Prop :=
  '\n' ∉ k ∧ '\n' ∉ v ∧ k.count '=' = 0 ∧ v.count '=' = 0 ∧
    trimSpace k = k ∧ trimSpace v = v ∧
    ¬(k.head? = some '[' ∧ v.getLast? = some ']' ∧
      k.count '[' + v.count '[' = 1 ∧ k.count ']' + v.count ']' = 1)

theorem count_of_all_space {sp : GoStr}
    (h : ∀ c ∈ sp, isSpaceChar c = true) {c : Char}
    (hc : isSpaceChar c = false) : sp.count c = 0 := by
  rw [List.count_eq_zero]
  intro hmem
  rw [h c hmem] at hc
  cases hc

theorem property_not_section_shape {a b : GoStr}
    (hsec : isSection (a ++ '=' :: b) = some false)
    (hk : (trimSpace a).head? = some '[')
    (hv : (trimSpace b).getLast? = some ']')
    (hcl : (trimSpace a).count '[' + (trimSpace b).count '[' = 1)
    (hcr : (trimSpace a).count ']' + (trimSpace b).count ']' = 1) : False := by
  have hkne : trimSpace a ≠ [] := by
    intro h0
    rw [h0] at hk
    simp at hk
  have hvne : trimSpace b ≠ [] := by
    intro h0
    rw [h0] at hv
    simp at hv
  have hAne : trimLeftSpace a ≠ [] := by
    intro h0
    apply hkne
    show trimRightSpace (trimLeftSpace a) = []
    rw [h0]
    rfl
  have e1 : trimLeftSpace (a ++ '=' :: b) = trimLeftSpace a ++ '=' :: b :=
    dropWhile_append_of_ne_nil _ hAne
  obtain ⟨sp₁, e2, hsp₁⟩ := dropWhileR_decomp isSpaceChar (trimLeftSpace a)
  have e2' : trimLeftSpace a = trimSpace a ++ sp₁ := e2
  obtain ⟨sp₂, e3, hsp₂⟩ := dropWhile_decomp isSpaceChar b
  have e3' : b = sp₂ ++ trimLeftSpace b := e3
  have hLbne : trimRightSpace (trimLeftSpace b) ≠ [] := hvne
  have e4 : trimRightSpace b = sp₂ ++ trimSpace b := by
    conv_lhs => rw [e3']
    exact dropWhileR_append_of_ne_nil sp₂ hLbne
  have hRbne : trimRightSpace b ≠ [] := by
    rw [e4]
    intro h0
    rcases List.append_eq_nil.1 h0 with ⟨-, h2⟩
    exact hvne h2
  have e5 : trimSpace (a ++ '=' :: b) =
      (trimSpace a ++ sp₁) ++ '=' :: (sp₂ ++ trimSpace b) := by
    have estep : trimRightSpace (((trimSpace a ++ sp₁) ++ ['=']) ++ b) =
        ((trimSpace a ++ sp₁) ++ ['=']) ++ trimRightSpace b :=
      dropWhileR_append_of_ne_nil _ hRbne
    show trimRightSpace (trimLeftSpace (a ++ '=' :: b)) = _
    rw [e1, e2']
    rw [(by simp : (trimSpace a ++ sp₁) ++ '=' :: b =
      ((trimSpace a ++ sp₁) ++ ['=']) ++ b)]
    rw [estep, e4]
    simp
  have hhead : (trimSpace (a ++ '=' :: b)).head? = some '[' := by
    rw [e5, List.append_assoc, List.head?_append, hk]
    rfl
  have hlast : (trimSpace (a ++ '=' :: b)).getLast? = some ']' := by
    have hsplit : (trimSpace a ++ sp₁) ++ '=' :: (sp₂ ++ trimSpace b) =
        ((trimSpace a ++ sp₁) ++ '=' :: sp₂) ++ trimSpace b := by simp
    rw [e5, hsplit, List.getLast?_append, hv]
    rfl
  have hz1l : sp₁.count '[' = 0 := count_of_all_space hsp₁ (by decide)
  have hz2l : sp₂.count '[' = 0 := count_of_all_space hsp₂ (by decide)
  have hz1r : sp₁.count ']' = 0 := count_of_all_space hsp₁ (by decide)
  have hz2r : sp₂.count ']' = 0 := count_of_all_space hsp₂ (by decide)
  have hcount1 : (trimSpace (a ++ '=' :: b)).count '[' = 1 := by
    rw [e5]
    rw [List.count_append, List.count_append, List.count_cons,
      List.count_append]
    simp only [hz1l, hz2l]
    have : ('=' == '[') = false := by decide
    rw [this]
    simp
    omega
  have hcount2 : (trimSpace (a ++ '=' :: b)).count ']' = 1 := by
    rw [e5]
    rw [List.count_append, List.count_append, List.count_cons,
      List.count_append]
    simp only [hz1r, hz2r]
    have : ('=' == ']') = false := by decide
    rw [this]
    simp
    omega
  have htrue := isSection_eq_true hhead hlast hcount1 hcount2
  rw [htrue] at hsec
  simp at hsec

theorem parseProperity_ok_elim {line k v : GoStr}
    (hp : parseProperity line = .ok (k, v)) (hc : line.count '=' = 1) :
    ∃ a b, line = a ++ '=' :: b ∧ '=' ∉ a ∧ '=' ∉ b ∧ a ≠ [] ∧
      k = trimSpace a ∧ v = trimSpace b := by
  obtain ⟨a, b, rfl, ha, hb⟩ := count_one_decomp hc
  rw [parseProperity_split b ha] at hp
  by_cases hz : a = []
  · rw [if_pos hz] at hp
    cases hp
  · rw [if_neg hz] at hp
    refine ⟨a, b, rfl, ha, hb, hz, ?_, ?_⟩
    · cases hp
      rfl
    · cases hp
      rfl

theorem parse_kvOK {line k v : GoStr} (hnl : '\n' ∉ line)
    (hc : line.count '=' = 1) (hsec : isSection line = some false)
    (hp : parseProperity line = .ok (k, v)) : kvOK k v := by
  obtain ⟨a, b, rfl, ha, hb, hz, hk, hv⟩ := parseProperity_ok_elim hp hc
  subst hk
  subst hv
  have hsubA : (trimSpace a).Sublist a := trimSpace_sublist a
  have hsubB : (trimSpace b).Sublist b := trimSpace_sublist b
  refine ⟨?_, ?_, ?_, ?_, trimSpace_idem a, trimSpace_idem b, ?_⟩
  · intro hmem
    exact hnl (by simp [hsubA.mem hmem])
  · intro hmem
    exact hnl (by simp [hsubB.mem hmem])
  · exact List.count_eq_zero.2 (fun hmem => ha (hsubA.mem hmem))
  · exact List.count_eq_zero.2 (fun hmem => hb (hsubB.mem hmem))
  · rintro ⟨s1, s2, s3, s4⟩
    exact property_not_section_shape hsec s1 s2 s3 s4

theorem parseSection_nameOK {line name : GoStr} (hnl : '\n' ∉ line)
    (hs : parseSection line = .ok name) : nameOK name := by
  unfold parseSection at hs
  by_cases h2 : line.length = 2
  · rw [if_pos h2] at hs
    cases hs
  · rw [if_neg h2] at hs
    have hname : dropWhileR inCutR
        (((line.drop 1).dropLast).dropWhile inCutL) = name := by
      cases hs
      rfl
    have hsub : name.Sublist line := by
      rw [← hname]
      exact ((dropWhileR_sublist _ _).trans
        ((List.dropWhile_sublist _).trans
          ((List.dropLast_sublist _).trans (List.drop_sublist _ _))))
    refine ⟨fun hmem => hnl (hsub.mem hmem), ?_, ?_⟩
    · intro c hchead
      have hne : name ≠ [] := by
        intro h0
        rw [h0] at hchead
        simp at hchead
      obtain ⟨sp, hy, -⟩ :=
        dropWhileR_decomp inCutR (((line.drop 1).dropLast).dropWhile inCutL)
      rw [hname] at hy
      have hhy : ((((line.drop 1).dropLast).dropWhile inCutL)).head? =
          some c := by
        rw [hy, List.head?_append, hchead]
        rfl
      have := head?_dropWhile_false hhy
      constructor
      · intro hcc
        rw [hcc] at this
        simp [inCutL] at this
      · intro hcc
        rw [hcc] at this
        simp [inCutL] at this
    · intro c hclast
      have : inCutR c = false := by
        apply @getLast?_dropWhileR_false inCutR
          ((((line.drop 1).dropLast)).dropWhile inCutL) c
        rw [hname, hclast]
      constructor
      · intro hcc
        rw [hcc] at this
        simp [inCutR] at this
      · intro hcc
        rw [hcc] at this
        simp [inCutR] at this

/-! Step equations of the parse loop, one per branch of the line switch. -/

theorem parseLines_step_crash {line : GoStr} (rest : List GoStr)
    (cur : GoStr) (doc : Sections) (h : lineType line = none) :
    parseLines (line :: rest) cur doc = .crash := by
  simp only [parseLines, h]

theorem parseLines_step_empty {line : GoStr} (rest : List GoStr)
    (cur : GoStr) (doc : Sections) (h : lineType line = some .emptyLine) :
    parseLines (line :: rest) cur doc = parseLines rest cur doc := by
  simp only [parseLines, h]

theorem parseLines_step_comment {line : GoStr} (rest : List GoStr)
    (cur : GoStr) (doc : Sections) (h : lineType line = some .commentLine) :
    parseLines (line :: rest) cur doc = parseLines rest cur doc := by
  simp only [parseLines, h]

theorem parseLines_step_unsported {line : GoStr} (rest : List GoStr)
    (cur : GoStr) (doc : Sections) (h : lineType line = some .unsportedLine) :
    parseLines (line :: rest) cur doc = .fail doc .invalidLineErr := by
  simp only [parseLines, h]

theorem parseLines_step_section_err {line : GoStr} (rest : List GoStr)
    (cur : GoStr) (doc : Sections) {e : IniErr}
    (h1 : lineType line = some .sectionLine)
    (h2 : parseSection line = .error e) :
    parseLines (line :: rest) cur doc = .fail doc e := by
  simp only [parseLines, h1, h2]

theorem parseLines_step_section_ok {line : GoStr} (rest : List GoStr)
    (cur : GoStr) (doc : Sections) {name : GoStr}
    (h1 : lineType line = some .sectionLine)
    (h2 : parseSection line = .ok name) :
    parseLines (line :: rest) cur doc =
      parseLines rest name (assocSet name [] doc) := by
  simp only [parseLines, h1, h2]

theorem parseLines_step_prop_err {line : GoStr} (rest : List GoStr)
    (cur : GoStr) (doc : Sections) {e : IniErr}
    (h1 : lineType line = some .propertyLine)
    (h2 : parseProperity line = .error e) :
    parseLines (line :: rest) cur doc = .fail doc e := by
  simp only [parseLines, h1, h2]

theorem parseLines_step_prop_global {line : GoStr} (rest : List GoStr)
    (doc : Sections) {k v : GoStr}
    (h1 : lineType line = some .propertyLine)
    (h2 : parseProperity line = .ok (k, v)) :
    parseLines (line :: rest) [] doc = .fail doc .globalProperity := by
  simp only [parseLines, h1, h2]
  simp

theorem parseLines_step_prop_crash {line : GoStr} (rest : List GoStr)
    {cur : GoStr} (doc : Sections) {k v : GoStr}
    (h1 : lineType line = some .propertyLine)
    (h2 : parseProperity line = .ok (k, v)) (h3 : cur ≠ [])
    (h4 : assocFind cur doc = none) :
    parseLines (line :: rest) cur doc = .crash := by
  simp only [parseLines, h1, h2, if_neg h3, h4]

theorem parseLines_step_prop_ok {line : GoStr} (rest : List GoStr)
    {cur : GoStr} (doc : Sections) {k v : GoStr} {sec : Section}
    (h1 : lineType line = some .propertyLine)
    (h2 : parseProperity line = .ok (k, v)) (h3 : cur ≠ [])
    (h4 : assocFind cur doc = some sec) :
    parseLines (line :: rest) cur doc =
      parseLines rest cur (assocSet cur (assocSet k v sec) doc) := by
  simp only [parseLines, h1, h2, if_neg h3, h4]

/-! The document invariant maintained by a successful parse. -/

/-- docInv holds of every document a successful parse produces: distinct
section names, and shape-correct names, keys and values. -/
def docInv (doc : Sections) : Prop :=
  (doc.map Prod.fst).Nodup ∧
    ∀ ns ∈ doc, nameOK ns.1 ∧ (ns.2.map Prod.fst).Nodup ∧
      ∀ kv ∈ ns.2, kvOK kv.1 kv.2

theorem docInv_nil : docInv [] := ⟨List.nodup_nil, by simp⟩

theorem docInv_section (h : docInv doc) {n : GoStr} (hn : nameOK n) :
    docInv (assocSet n [] doc) := by
  refine ⟨assocSet_nodup _ h.1, ?_⟩
  intro ns hns
  rcases mem_assocSet hns with h1 | h1
  · rw [h1]
    exact ⟨hn, List.nodup_nil, by simp⟩
  · exact h.2 ns h1

theorem docInv_property (h : docInv doc) {cur k v : GoStr} {sec : Section}
    (hfind : assocFind cur doc = some sec) (hkv : kvOK k v) :
    docInv (assocSet cur (assocSet k v sec) doc) := by
  obtain ⟨hcur, hsec⟩ : nameOK cur ∧ (sec.map Prod.fst).Nodup ∧
      ∀ kv ∈ sec, kvOK kv.1 kv.2 := by
    have := h.2 (cur, sec) (assocFind_mem hfind)
    exact ⟨this.1, this.2⟩
  refine ⟨assocSet_nodup _ h.1, ?_⟩
  intro ns hns
  rcases mem_assocSet hns with h1 | h1
  · rw [h1]
    refine ⟨hcur, assocSet_nodup _ hsec.1, ?_⟩
    intro kv hkv2
    rcases mem_assocSet hkv2 with h2 | h2
    · rw [h2]
      exact hkv
    · exact hsec.2 kv h2
  · exact h.2 ns h1

theorem splitLines_ne_nil (s : GoStr) : splitLines s ≠ [] := by
  cases s with
  | nil => simp [splitLines]
  | cons c rest =>
    unfold splitLines
    by_cases h : c = '\n'
    · simp [h]
    · rw [if_neg h]
      cases h2 : splitLines rest with
      | nil => simp
      | cons l ls => simp

theorem mem_splitLines_no_newline {s : GoStr} {l : GoStr}
    (h : l ∈ splitLines s) : '\n' ∉ l := by
  induction s generalizing l with
  | nil =>
    have : l = [] := by simpa [splitLines] using h
    simp [this]
  | cons c rest ih =>
    unfold splitLines at h
    by_cases hc : c = '\n'
    · rw [if_pos hc] at h
      rcases List.mem_cons.1 h with h1 | h1
      · simp [h1]
      · exact ih h1
    · rw [if_neg hc] at h
      cases h2 : splitLines rest with
      | nil => exact absurd h2 (splitLines_ne_nil rest)
      | cons l0 ls =>
        rw [h2] at h
        rcases List.mem_cons.1 h with h1 | h1
        · rw [h1]
          intro hmem
          rcases List.mem_cons.1 hmem with h3 | h3
          · exact hc h3.symm
          · have : '\n' ∉ l0 := ih (by rw [h2]; exact List.mem_cons_self _ _)
            exact this h3
        · exact ih (by rw [h2]; exact List.mem_cons_of_mem _ h1)

theorem parseLines_ok_inv {ls : List GoStr} :
    ∀ {cur : GoStr} {doc : Sections}, docInv doc →
      (∀ l ∈ ls, '\n' ∉ l) → ∀ {doc' : Sections},
      parseLines ls cur doc = .ok doc' → docInv doc' := by
  induction ls with
  | nil =>
    intro cur doc hinv hnl doc' h
    have : doc = doc' := by
      simpa [parseLines] using h
    rwa [← this]
  | cons line rest ih =>
    intro cur doc hinv hnl doc' h
    have hnl_line : '\n' ∉ line := hnl line (List.mem_cons_self _ _)
    have hnl_rest : ∀ l ∈ rest, '\n' ∉ l :=
      fun l hl => hnl l (List.mem_cons_of_mem _ hl)
    cases hlt : lineType line with
    | none =>
      rw [parseLines_step_crash rest cur doc hlt] at h
      cases h
    | some lt =>
      cases lt with
      | emptyLine =>
        rw [parseLines_step_empty rest cur doc hlt] at h
        exact ih hinv hnl_rest h
      | commentLine =>
        rw [parseLines_step_comment rest cur doc hlt] at h
        exact ih hinv hnl_rest h
      | unsportedLine =>
        rw [parseLines_step_unsported rest cur doc hlt] at h
        cases h
      | sectionLine =>
        cases hps : parseSection line with
        | error e =>
          rw [parseLines_step_section_err rest cur doc hlt hps] at h
          cases h
        | ok name =>
          rw [parseLines_step_section_ok rest cur doc hlt hps] at h
          exact ih (docInv_section hinv (parseSection_nameOK hnl_line hps))
            hnl_rest h
      | propertyLine =>
        cases hpp : parseProperity line with
        | error e =>
          rw [parseLines_step_prop_err rest cur doc hlt hpp] at h
          cases h
        | ok kv =>
          obtain ⟨k, v⟩ := kv
          by_cases hcur : cur = []
          · subst hcur
            rw [parseLines_step_prop_global rest doc hlt hpp] at h
            cases h
          · cases hfind : assocFind cur doc with
            | none =>
              rw [parseLines_step_prop_crash rest doc hlt hpp hcur hfind] at h
              cases h
            | some sec =>
              rw [parseLines_step_prop_ok rest doc hlt hpp hcur hfind] at h
              have helim := lineType_property_elim hlt
              exact ih (docInv_property hinv hfind
                (parse_kvOK hnl_line helim.2 helim.1 hpp)) hnl_rest h

theorem parseLines_nil (cur : GoStr) (doc : Sections) :
    parseLines [] cur doc = .ok doc := by
  simp [parseLines]

/-! Fail-fast structure of the loop: an error absorbs any suffix, and every
error is located at the first erroneous line, after an error-free prefix. -/

theorem parseLines_fail_append {ls : List GoStr} (ls' : List GoStr) :
    ∀ {cur : GoStr} {doc doc' : Sections} {e : IniErr},
      parseLines ls cur doc = .fail doc' e →
      parseLines (ls ++ ls') cur doc = .fail doc' e := by
  induction ls with
  | nil =>
    intro cur doc doc' e h
    rw [parseLines_nil] at h
    cases h
  | cons line rest ih =>
    intro cur doc doc' e h
    rw [List.cons_append]
    cases hlt : lineType line with
    | none =>
      rw [parseLines_step_crash rest cur doc hlt] at h
      cases h
    | some lt =>
      cases lt with
      | emptyLine =>
        rw [parseLines_step_empty rest cur doc hlt] at h
        rw [parseLines_step_empty (rest ++ ls') cur doc hlt]
        exact ih h
      | commentLine =>
        rw [parseLines_step_comment rest cur doc hlt] at h
        rw [parseLines_step_comment (rest ++ ls') cur doc hlt]
        exact ih h
      | unsportedLine =>
        rw [parseLines_step_unsported rest cur doc hlt] at h
        rw [parseLines_step_unsported (rest ++ ls') cur doc hlt]
        exact h
      | sectionLine =>
        cases hps : parseSection line with
        | error e0 =>
          rw [parseLines_step_section_err rest cur doc hlt hps] at h
          rw [parseLines_step_section_err (rest ++ ls') cur doc hlt hps]
          exact h
        | ok name =>
          rw [parseLines_step_section_ok rest cur doc hlt hps] at h
          rw [parseLines_step_section_ok (rest ++ ls') cur doc hlt hps]
          exact ih h
      | propertyLine =>
        cases hpp : parseProperity line with
        | error e0 =>
          rw [parseLines_step_prop_err rest cur doc hlt hpp] at h
          rw [parseLines_step_prop_err (rest ++ ls') cur doc hlt hpp]
          exact h
        | ok kv =>
          obtain ⟨k, v⟩ := kv
          by_cases hcur : cur = []
          · subst hcur
            rw [parseLines_step_prop_global rest doc hlt hpp] at h
            rw [parseLines_step_prop_global (rest ++ ls') doc hlt hpp]
            exact h
          · cases hfind : assocFind cur doc with
            | none =>
              rw [parseLines_step_prop_crash rest doc hlt hpp hcur hfind] at h
              cases h
            | some sec =>
              rw [parseLines_step_prop_ok rest doc hlt hpp hcur hfind] at h
              rw [parseLines_step_prop_ok (rest ++ ls') doc hlt hpp hcur hfind]
              exact ih h

theorem parseLines_fail_first {ls : List GoStr} :
    ∀ {cur : GoStr} {doc doc' : Sections} {e : IniErr},
      parseLines ls cur doc = .fail doc' e →
      ∃ pre line post, ls = pre ++ line :: post ∧
        parseLines pre cur doc = .ok doc' ∧
        parseLines (pre ++ [line]) cur doc = .fail doc' e := by
  induction ls with
  | nil =>
    intro cur doc doc' e h
    rw [parseLines_nil] at h
    cases h
  | cons line rest ih =>
    intro cur doc doc' e h
    cases hlt : lineType line with
    | none =>
      rw [parseLines_step_crash rest cur doc hlt] at h
      cases h
    | some lt =>
      cases lt with
      | emptyLine =>
        rw [parseLines_step_empty rest cur doc hlt] at h
        obtain ⟨pre, l, post, hsplit, hok, hfail⟩ := ih h
        refine ⟨line :: pre, l, post, by rw [hsplit]; rfl, ?_, ?_⟩
        · rw [parseLines_step_empty pre cur doc hlt]
          exact hok
        · rw [List.cons_append, parseLines_step_empty (pre ++ [l]) cur doc hlt]
          exact hfail
      | commentLine =>
        rw [parseLines_step_comment rest cur doc hlt] at h
        obtain ⟨pre, l, post, hsplit, hok, hfail⟩ := ih h
        refine ⟨line :: pre, l, post, by rw [hsplit]; rfl, ?_, ?_⟩
        · rw [parseLines_step_comment pre cur doc hlt]
          exact hok
        · rw [List.cons_append, parseLines_step_comment (pre ++ [l]) cur doc hlt]
          exact hfail
      | unsportedLine =>
        rw [parseLines_step_unsported rest cur doc hlt] at h
        injection h with hd he
        subst hd
        subst he
        refine ⟨[], line, rest, rfl, parseLines_nil cur doc, ?_⟩
        rw [List.nil_append]
        exact parseLines_step_unsported [] cur doc hlt
      | sectionLine =>
        cases hps : parseSection line with
        | error e0 =>
          rw [parseLines_step_section_err rest cur doc hlt hps] at h
          injection h with hd he
          subst hd
          subst he
          refine ⟨[], line, rest, rfl, parseLines_nil cur doc, ?_⟩
          rw [List.nil_append]
          exact parseLines_step_section_err [] cur doc hlt hps
        | ok name =>
          rw [parseLines_step_section_ok rest cur doc hlt hps] at h
          obtain ⟨pre, l, post, hsplit, hok, hfail⟩ := ih h
          refine ⟨line :: pre, l, post, by rw [hsplit]; rfl, ?_, ?_⟩
          · rw [parseLines_step_section_ok pre cur doc hlt hps]
            exact hok
          · rw [List.cons_append,
              parseLines_step_section_ok (pre ++ [l]) cur doc hlt hps]
            exact hfail
      | propertyLine =>
        cases hpp : parseProperity line with
        | error e0 =>
          rw [parseLines_step_prop_err rest cur doc hlt hpp] at h
          injection h with hd he
          subst hd
          subst he
          refine ⟨[], line, rest, rfl, parseLines_nil cur doc, ?_⟩
          rw [List.nil_append]
          exact parseLines_step_prop_err [] cur doc hlt hpp
        | ok kv =>
          obtain ⟨k, v⟩ := kv
          by_cases hcur : cur = []
          · subst hcur
            rw [parseLines_step_prop_global rest doc hlt hpp] at h
            injection h with hd he
            subst hd
            subst he
            refine ⟨[], line, rest, rfl, parseLines_nil [] doc, ?_⟩
            rw [List.nil_append]
            exact parseLines_step_prop_global [] doc hlt hpp
          · cases hfind : assocFind cur doc with
            | none =>
              rw [parseLines_step_prop_crash rest doc hlt hpp hcur hfind] at h
              cases h
            | some sec =>
              rw [parseLines_step_prop_ok rest doc hlt hpp hcur hfind] at h
              obtain ⟨pre, l, post, hsplit, hok, hfail⟩ := ih h
              refine ⟨line :: pre, l, post, by rw [hsplit]; rfl, ?_, ?_⟩
              · rw [parseLines_step_prop_ok pre doc hlt hpp hcur hfind]
                exact hok
              · rw [List.cons_append,
                  parseLines_step_prop_ok (pre ++ [l]) doc hlt hpp hcur hfind]
                exact hfail

/-- resultDoc projects the document out of a parse outcome; a crash carries
none. -/
def resultDoc : ParseResult → Option Sections
  | .ok d => some d
  | .fail d _ => some d
  | .crash => none

theorem parseLines_nodup {ls : List GoStr} :
    ∀ {cur : GoStr} {doc : Sections}, (doc.map Prod.fst).Nodup →
      ∀ {doc' : Sections}, resultDoc (parseLines ls cur doc) = some doc' →
      (doc'.map Prod.fst).Nodup := by
  induction ls with
  | nil =>
    intro cur doc hnd doc' h
    rw [parseLines_nil] at h
    injection h with h0
    rwa [← h0]
  | cons line rest ih =>
    intro cur doc hnd doc' h
    cases hlt : lineType line with
    | none =>
      rw [parseLines_step_crash rest cur doc hlt] at h
      cases h
    | some lt =>
      cases lt with
      | emptyLine =>
        rw [parseLines_step_empty rest cur doc hlt] at h
        exact ih hnd h
      | commentLine =>
        rw [parseLines_step_comment rest cur doc hlt] at h
        exact ih hnd h
      | unsportedLine =>
        rw [parseLines_step_unsported rest cur doc hlt] at h
        injection h with h0
        rwa [← h0]
      | sectionLine =>
        cases hps : parseSection line with
        | error e0 =>
          rw [parseLines_step_section_err rest cur doc hlt hps] at h
          injection h with h0
          rwa [← h0]
        | ok name =>
          rw [parseLines_step_section_ok rest cur doc hlt hps] at h
          exact ih (assocSet_nodup _ hnd) h
      | propertyLine =>
        cases hpp : parseProperity line with
        | error e0 =>
          rw [parseLines_step_prop_err rest cur doc hlt hpp] at h
          injection h with h0
          rwa [← h0]
        | ok kv =>
          obtain ⟨k, v⟩ := kv
          by_cases hcur : cur = []
          · subst hcur
            rw [parseLines_step_prop_global rest doc hlt hpp] at h
            injection h with h0
            rwa [← h0]
          · cases hfind : assocFind cur doc with
            | none =>
              rw [parseLines_step_prop_crash rest doc hlt hpp hcur hfind] at h
              cases h
            | some sec =>
              rw [parseLines_step_prop_ok rest doc hlt hpp hcur hfind] at h
              exact ih (assocSet_nodup _ hnd) h

theorem parseLines_skip {pre : List GoStr} (ls : List GoStr) :
    ∀ {cur : GoStr} {doc : Sections},
      (∀ l ∈ pre, lineType l = some .emptyLine ∨ lineType l = some .commentLine) →
      parseLines (pre ++ ls) cur doc = parseLines ls cur doc := by
  induction pre with
  | nil =>
    intro cur doc _
    rw [List.nil_append]
  | cons line pre' ih =>
    intro cur doc hpre
    rw [List.cons_append]
    rcases hpre line (List.mem_cons_self _ _) with h1 | h1
    · rw [parseLines_step_empty (pre' ++ ls) cur doc h1]
      exact ih (fun l hl => hpre l (List.mem_cons_of_mem _ hl))
    · rw [parseLines_step_comment (pre' ++ ls) cur doc h1]
      exact ih (fun l hl => hpre l (List.mem_cons_of_mem _ hl))

/-! The serializer output, seen as a list of newline-terminated lines. -/

/-- secLine is the header line the serializer prints for one section. -/
def secLine (n : GoStr) : GoStr := '[' :: n ++ [']']

/-- propLine is the line the serializer prints for one key/value pair. -/
def propLine (k v : GoStr) : GoStr := k ++ ' ' :: '=' :: ' ' :: v

/-- sectionLinesOf lists the lines printed for one section. -/
def sectionLinesOf (n : GoStr) (sec : Section) : List GoStr :=
  secLine n :: sec.map (fun kv => propLine kv.1 kv.2)

/-- renderLines lists every line of the serialized document, in order. -/
def renderLines (doc : Sections) : List GoStr :=
  (doc.map (fun ns => sectionLinesOf ns.1 ns.2)).flatten

theorem renderSection_eq_lines (n : GoStr) (sec : Section) :
    renderSection n sec =
      ((sectionLinesOf n sec).map (fun l => l ++ ['\n'])).flatten := by
  simp only [sectionLinesOf, List.map_cons, List.flatten_cons, List.map_map]
  have hpt : ∀ kv ∈ sec,
      ((fun l => l ++ ['\n']) ∘ fun kv : GoStr × GoStr => propLine kv.1 kv.2) kv
        = (fun kv : GoStr × GoStr =>
            kv.1 ++ ' ' :: '=' :: ' ' :: kv.2 ++ ['\n']) kv :=
    fun kv _ => by simp [propLine]
  rw [List.map_congr_left hpt]
  simp [renderSection, secLine]

theorem renderDoc_eq_lines (doc : Sections) :
    renderDoc doc = ((renderLines doc).map (fun l => l ++ ['\n'])).flatten := by
  induction doc with
  | nil => rfl
  | cons ns doc' ih =>
    obtain ⟨n, sec⟩ := ns
    show renderSection n sec ++ renderDoc doc' = _
    rw [ih, renderSection_eq_lines n sec]
    simp [renderLines]

theorem splitLines_append_line {l : GoStr} (rest : GoStr) (h : '\n' ∉ l) :
    splitLines (l ++ '\n' :: rest) = l :: splitLines rest := by
  induction l with
  | nil =>
    show splitLines ('\n' :: rest) = [] :: splitLines rest
    simp [splitLines]
  | cons c l' ih =>
    have hc : ¬(c = '\n') := by
      intro hh
      exact h (by simp [hh])
    have ih' := ih (fun hm => h (List.mem_cons_of_mem _ hm))
    show splitLines (c :: (l' ++ '\n' :: rest)) = _
    simp only [splitLines]
    rw [if_neg hc, ih']

theorem splitLines_flat {lines : List GoStr}
    (h : ∀ l ∈ lines, '\n' ∉ l) :
    splitLines ((lines.map (fun l => l ++ ['\n'])).flatten) = lines ++ [[]] := by
  induction lines with
  | nil => rfl
  | cons l ls ih =>
    simp only [List.map_cons, List.flatten_cons]
    rw [(by simp : (l ++ ['\n']) ++ ((ls.map (fun l => l ++ ['\n'])).flatten) =
      l ++ '\n' :: ((ls.map (fun l => l ++ ['\n'])).flatten))]
    rw [splitLines_append_line _ (h l (List.mem_cons_self _ _)),
      ih (fun x hx => h x (List.mem_cons_of_mem _ hx))]
    rfl

/-! Evaluation of the serializer's lines under the classifier and the
decoders, given the shape invariants. -/

theorem head?_append_left {l₁ l₂ : GoStr} {c : Char}
    (h : l₁.head? = some c) : (l₁ ++ l₂).head? = some c := by
  rw [List.head?_append, h]
  rfl

theorem getLast?_append_right (l₁ : GoStr) {l₂ : GoStr} {c : Char}
    (h : l₂.getLast? = some c) : (l₁ ++ l₂).getLast? = some c := by
  rw [List.getLast?_append, h]
  rfl

theorem isSection_eq_false {line : GoStr} {c : Char} {rest : GoStr}
    (ht : trimSpace line = c :: rest)
    (hfalse : ¬(c = '[' ∧ (c :: rest).getLast? = some ']' ∧
      (c :: rest).count '[' = 1 ∧ (c :: rest).count ']' = 1)) :
    isSection line = some false := by
  rw [isSection_of_trim_cons ht]
  have hb : (decide (c = '[') && decide ((c :: rest).getLast? = some ']') &&
      decide ((c :: rest).count '[' = 1) &&
      decide ((c :: rest).count ']' = 1)) = false := by
    by_contra h0
    rw [Bool.not_eq_false] at h0
    simp only [Bool.and_eq_true, decide_eq_true_eq] at h0
    exact hfalse ⟨h0.1.1.1, h0.1.1.2, h0.1.2, h0.2⟩
  rw [hb]

theorem trimSpace_secLine (n : GoStr) : trimSpace (secLine n) = secLine n := by
  have hhead : (secLine n).head? = some '[' := rfl
  have hlast : (secLine n).getLast? = some ']' := by
    show (('[' :: n) ++ [']']).getLast? = some ']'
    exact List.getLast?_concat _
  have hL : trimLeftSpace (secLine n) = secLine n :=
    dropWhile_eq_self_of_head (fun c hc => by
      rw [hhead] at hc
      cases hc
      rfl)
  have hR : trimRightSpace (secLine n) = secLine n :=
    dropWhileR_eq_self_of_last (fun c hc => by
      rw [hlast] at hc
      cases hc
      rfl)
  show trimRightSpace (trimLeftSpace (secLine n)) = secLine n
  rw [hL, hR]

theorem isSection_secLine {n : GoStr} (hbl : '[' ∉ n) (hbr : ']' ∉ n) :
    isSection (secLine n) = some true := by
  apply isSection_eq_true
  · rw [trimSpace_secLine]
    rfl
  · rw [trimSpace_secLine]
    show (('[' :: n) ++ [']']).getLast? = some ']'
    exact List.getLast?_concat _
  · rw [trimSpace_secLine]
    show ('[' :: (n ++ [']'])).count '[' = 1
    rw [List.count_cons, List.count_append, List.count_eq_zero.2 hbl]
    simp
  · rw [trimSpace_secLine]
    show ('[' :: (n ++ [']'])).count ']' = 1
    rw [List.count_cons, List.count_append, List.count_eq_zero.2 hbr]
    simp

theorem lineType_secLine {n : GoStr} (hbl : '[' ∉ n) (hbr : ']' ∉ n) :
    lineType (secLine n) = some .sectionLine := by
  apply lineType_eq_section_of
  · rfl
  · exact isSection_secLine hbl hbr

theorem parseSection_secLine {n : GoStr} (hOK : nameOK n) (hne : n ≠ []) :
    parseSection (secLine n) = .ok n := by
  unfold parseSection
  have hlen : (secLine n).length = n.length + 2 := by
    simp [secLine]
  rw [if_neg (by
    rw [hlen]
    intro h0
    exact hne (List.length_eq_zero.1 (by omega)))]
  have hdrop : (((secLine n).drop 1).dropLast) = n := by
    show (n ++ [']']).dropLast = n
    exact List.dropLast_concat
  rw [hdrop]
  have hL : n.dropWhile inCutL = n :=
    dropWhile_eq_self_of_head (fun c hc => by
      have hcc := hOK.2.1 c hc
      simp [inCutL, hcc.1, hcc.2])
  have hR : dropWhileR inCutR n = n :=
    dropWhileR_eq_self_of_last (fun c hc => by
      have hcc := hOK.2.2 c hc
      simp [inCutR, hcc.1, hcc.2])
  rw [hL, hR]

theorem isEmptyLine_propLine {k v : GoStr} (hnl : '\n' ∉ k) :
    isEmptyLine (propLine k v) = false := by
  cases k with
  | nil => rfl
  | cons c k' =>
    have hc : ¬(c = '\n') := by
      intro hh
      exact hnl (by simp [hh])
    simp [isEmptyLine, propLine, hc]

theorem count_propLine_eq {k v : GoStr} (hk : k.count '=' = 0)
    (hv : v.count '=' = 0) : (propLine k v).count '=' = 1 := by
  show (k ++ ' ' :: '=' :: ' ' :: v).count '=' = 1
  rw [List.count_append, hk, List.count_cons, List.count_cons, List.count_cons,
    hv]
  decide

theorem isProperity_propLine {k v : GoStr} (hk : k.count '=' = 0)
    (hv : v.count '=' = 0) : isProperity (propLine k v) = true := by
  simp [isProperity, count_propLine_eq hk hv]

theorem parseProperity_propLine {k v : GoStr} (hOK : kvOK k v) :
    parseProperity (propLine k v) = .ok (k, v) := by
  obtain ⟨hnlk, hnlv, hek, hev, htk, htv, -⟩ := hOK
  have hsplit : propLine k v = (k ++ [' ']) ++ '=' :: (' ' :: v) := by
    simp [propLine]
  have hnot : '=' ∉ k ++ [' '] := by
    intro hmem
    rcases List.mem_append.1 hmem with h1 | h1
    · exact (List.count_eq_zero.1 hek) h1
    · simp at h1
  rw [hsplit, parseProperity_split _ hnot,
    if_neg (by simp : ¬(k ++ [' '] = []))]
  have h1 : trimSpace (k ++ [' ']) = k := by
    rw [@trimSpace_append_all k [' '] (by decide), htk]
  have h2 : trimSpace (' ' :: v) = v := by
    show trimSpace ([' '] ++ v) = v
    rw [@trimSpace_prepend_all v [' '] (by decide), htv]
  rw [h1, h2]

theorem trimmed_head_not_space {k : GoStr} (htk : trimSpace k = k) {c : Char}
    (hc : k.head? = some c) : isSpaceChar c = false :=
  trimSpace_head_false (by rwa [htk])

theorem trimmed_last_not_space {k : GoStr} (htk : trimSpace k = k) {c : Char}
    (hc : k.getLast? = some c) : isSpaceChar c = false :=
  trimSpace_last_false (by rwa [htk])

theorem getLast?_some_of_ne_nil {v : GoStr} (hvne : v ≠ []) :
    ∃ d, v.getLast? = some d := by
  cases hq : v.getLast? with
  | none =>
    rw [List.getLast?_eq_none_iff] at hq
    exact absurd hq hvne
  | some d => exact ⟨d, rfl⟩

theorem count_propLine_char {k v : GoStr} (c : Char) (h1 : (' ' == c) = false)
    (h2 : ('=' == c) = false) :
    (propLine k v).count c = k.count c + v.count c := by
  show (k ++ ' ' :: '=' :: ' ' :: v).count c = _
  rw [List.count_append, List.count_cons, List.count_cons, List.count_cons,
    h1, h2]
  simp

theorem isSection_propLine {k v : GoStr} (hOK : kvOK k v) :
    isSection (propLine k v) = some false := by
  obtain ⟨hnlk, hnlv, hek, hev, htk, htv, hshape⟩ := hOK
  cases k with
  | nil =>
    have hL : trimLeftSpace (propLine [] v) = '=' :: ' ' :: v := by
      have hstep : trimLeftSpace ([' '] ++ ('=' :: ' ' :: v)) =
          trimLeftSpace ('=' :: ' ' :: v) := dropWhile_append_of_all _ (by decide)
      show trimLeftSpace ([' '] ++ ('=' :: ' ' :: v)) = _
      rw [hstep]
      exact dropWhile_eq_self_of_head (fun c hc => by
        cases hc
        rfl)
    by_cases hvne : v = []
    · subst hvne
      have ht : trimSpace (propLine [] []) = ['='] := by
        show trimRightSpace (trimLeftSpace (propLine [] [])) = _
        rw [hL]
        decide
      exact isSection_eq_false ht (fun hand => absurd hand.1 (by decide))
    · obtain ⟨d, hd⟩ := getLast?_some_of_ne_nil hvne
      have hdns : isSpaceChar d = false := trimmed_last_not_space htv hd
      have ht : trimSpace (propLine [] v) = '=' :: ' ' :: v := by
        show trimRightSpace (trimLeftSpace (propLine [] v)) = _
        rw [hL]
        apply dropWhileR_eq_self_of_last
        intro c hc
        have : (('=' :: ' ' :: v) : GoStr).getLast? = some d := by
          show ((['=', ' '] : GoStr) ++ v).getLast? = some d
          exact getLast?_append_right _ hd
        rw [this] at hc
        cases hc
        exact hdns
      exact isSection_eq_false ht (fun hand => absurd hand.1 (by decide))
  | cons kc k' =>
    have hkcns : isSpaceChar kc = false := trimmed_head_not_space htk rfl
    have hL : trimLeftSpace (propLine (kc :: k') v) = propLine (kc :: k') v :=
      dropWhile_eq_self_of_head (fun c hc => by
        have : (propLine (kc :: k') v).head? = some kc := rfl
        rw [this] at hc
        cases hc
        exact hkcns)
    by_cases hvne : v = []
    · subst hvne
      have hmid : dropWhileR isSpaceChar ([' ', '=', ' '] : GoStr) =
          [' ', '='] := by decide
      have ht : trimSpace (propLine (kc :: k') []) =
          kc :: (k' ++ [' ', '=']) := by
        show trimRightSpace (trimLeftSpace (propLine (kc :: k') [])) = _
        rw [hL]
        show dropWhileR isSpaceChar ((kc :: k') ++ [' ', '=', ' ']) = _
        rw [dropWhileR_append_of_ne_nil (kc :: k') (by rw [hmid]; simp), hmid]
        rfl
      apply isSection_eq_false ht
      rintro ⟨-, h2, -, -⟩
      have : (kc :: (k' ++ [' ', '='])).getLast? = some '=' := by
        show ((kc :: k') ++ [' ', '=']).getLast? = some '='
        exact getLast?_append_right _ (by decide)
      rw [this] at h2
      cases h2
    · obtain ⟨d, hd⟩ := getLast?_some_of_ne_nil hvne
      have hdns : isSpaceChar d = false := trimmed_last_not_space htv hd
      have hglast : (propLine (kc :: k') v).getLast? = some d := by
        have hassoc : propLine (kc :: k') v =
            ((kc :: k') ++ [' ', '=', ' ']) ++ v := by simp [propLine]
        rw [hassoc]
        exact getLast?_append_right _ hd
      have ht : trimSpace (propLine (kc :: k') v) = propLine (kc :: k') v := by
        show trimRightSpace (trimLeftSpace (propLine (kc :: k') v)) = _
        rw [hL]
        apply dropWhileR_eq_self_of_last
        intro c hc
        rw [hglast] at hc
        cases hc
        exact hdns
      have ht' : trimSpace (propLine (kc :: k') v) =
          kc :: (k' ++ ' ' :: '=' :: ' ' :: v) := ht
      apply isSection_eq_false ht'
      rintro ⟨h1, h2, h3, h4⟩
      apply hshape
      have hback : (kc :: (k' ++ ' ' :: '=' :: ' ' :: v)) =
          propLine (kc :: k') v := rfl
      refine ⟨?_, ?_, ?_, ?_⟩
      · show (kc :: k').head? = some '['
        rw [h1]
        rfl
      · rw [hback] at h2
        rw [hglast] at h2
        cases h2
        exact hd
      · rw [hback, count_propLine_char '[' (by decide) (by decide)] at h3
        exact h3
      · rw [hback, count_propLine_char ']' (by decide) (by decide)] at h4
        exact h4

theorem lineType_propLine {k v : GoStr} (hOK : kvOK k v) :
    lineType (propLine k v) = some .propertyLine := by
  apply lineType_eq_property_of
  · exact isEmptyLine_propLine hOK.1
  · exact isSection_propLine hOK
  · exact isProperity_propLine hOK.2.2.1 hOK.2.2.2.1

/-! Re-parsing the rendered lines reproduces the document. -/

theorem parse_props_steps {sec : Section} :
    ∀ (rest : List GoStr) {n : GoStr} {pre : Sections} {secAcc : Section},
      n ≠ [] → n ∉ pre.map Prod.fst →
      (∀ kv ∈ sec, kvOK kv.1 kv.2) →
      (∀ kk ∈ sec.map Prod.fst, kk ∉ secAcc.map Prod.fst) →
      (sec.map Prod.fst).Nodup →
      parseLines ((sec.map fun kv => propLine kv.1 kv.2) ++ rest) n
        (pre ++ [(n, secAcc)]) =
      parseLines rest n (pre ++ [(n, secAcc ++ sec)]) := by
  induction sec with
  | nil =>
    intro rest n pre secAcc _ _ _ _ _
    simp
  | cons kv sec' ih =>
    obtain ⟨k, v⟩ := kv
    intro rest n pre secAcc hne hnpre hkvs hdisj hnd
    have hkv : kvOK k v := hkvs (k, v) (List.mem_cons_self _ _)
    rw [List.map_cons, List.cons_append]
    have hfind : assocFind n (pre ++ [(n, secAcc)]) = some secAcc := by
      rw [assocFind_append_not_mem _ hnpre]
      simp [assocFind]
    rw [parseLines_step_prop_ok _ _ (lineType_propLine hkv)
      (parseProperity_propLine hkv) hne hfind]
    have hknotin : k ∉ secAcc.map Prod.fst := hdisj k (by simp)
    have hset1 : assocSet k v secAcc = secAcc ++ [(k, v)] :=
      assocSet_keys_not_mem _ hknotin
    have hset2 : assocSet n (assocSet k v secAcc) (pre ++ [(n, secAcc)]) =
        pre ++ [(n, assocSet k v secAcc)] :=
      assocSet_append_not_mem_mid _ _ [] hnpre
    rw [hset2, hset1]
    have hnd0 : k ∉ sec'.map Prod.fst ∧ (sec'.map Prod.fst).Nodup := by
      have h0 : (k :: sec'.map Prod.fst).Nodup := by simpa using hnd
      exact ⟨(List.nodup_cons.1 h0).1, (List.nodup_cons.1 h0).2⟩
    have hdisj' : ∀ kk ∈ sec'.map Prod.fst,
        kk ∉ (secAcc ++ [(k, v)]).map Prod.fst := by
      intro kk hm hmm
      rw [List.map_append] at hmm
      rcases List.mem_append.1 hmm with h1 | h1
      · exact hdisj kk (by simp [hm]) h1
      · have hkk : kk = k := by simpa using h1
        exact hnd0.1 (hkk ▸ hm)
    rw [ih rest hne hnpre
      (fun kv2 hm => hkvs kv2 (List.mem_cons_of_mem _ hm)) hdisj' hnd0.2]
    have hmassage : (secAcc ++ [(k, v)]) ++ sec' = secAcc ++ (k, v) :: sec' := by
      simp
    rw [hmassage]

theorem parse_render_sections {doc : Sections} :
    ∀ {accDoc : Sections} (cur : GoStr),
      docInv doc →
      (∀ n ∈ doc.map Prod.fst, n ≠ [] ∧ '[' ∉ n ∧ ']' ∉ n) →
      (∀ n ∈ doc.map Prod.fst, n ∉ accDoc.map Prod.fst) →
      parseLines (renderLines doc ++ [[]]) cur accDoc = .ok (accDoc ++ doc) := by
  induction doc with
  | nil =>
    intro accDoc cur _ _ _
    show parseLines ([] :: []) cur accDoc = .ok (accDoc ++ [])
    rw [parseLines_step_empty [] cur accDoc (by decide), parseLines_nil]
    simp
  | cons ns doc' ih =>
    obtain ⟨n, sec⟩ := ns
    intro accDoc cur hinv hshape hdisj
    have hn_mem : n ∈ ((n, sec) :: doc').map Prod.fst := by simp
    have hsh := hshape n hn_mem
    have hsecInv := hinv.2 (n, sec) (List.mem_cons_self _ _)
    have hrl : renderLines ((n, sec) :: doc') ++ [[]] =
        secLine n :: ((sec.map fun kv => propLine kv.1 kv.2) ++
          (renderLines doc' ++ [[]])) := by
      simp [renderLines, sectionLinesOf]
    rw [hrl]
    rw [parseLines_step_section_ok _ _ _ (lineType_secLine hsh.2.1 hsh.2.2)
      (parseSection_secLine hsecInv.1 hsh.1)]
    have hnotacc : n ∉ accDoc.map Prod.fst := hdisj n hn_mem
    rw [assocSet_keys_not_mem _ hnotacc]
    rw [parse_props_steps _ hsh.1 hnotacc hsecInv.2.2
      (by simp) hsecInv.2.1]
    rw [List.nil_append]
    have h0 : (n :: doc'.map Prod.fst).Nodup := by simpa using hinv.1
    have hinv' : docInv doc' :=
      ⟨(List.nodup_cons.1 h0).2,
        fun ns hns => hinv.2 ns (List.mem_cons_of_mem _ hns)⟩
    have hshape' : ∀ n' ∈ doc'.map Prod.fst, n' ≠ [] ∧ '[' ∉ n' ∧ ']' ∉ n' :=
      fun n' hm => hshape n' (by simp [hm])
    have hdisj' : ∀ n' ∈ doc'.map Prod.fst,
        n' ∉ (accDoc ++ [(n, sec)]).map Prod.fst := by
      intro n' hm hmm
      rw [List.map_append] at hmm
      rcases List.mem_append.1 hmm with h1 | h1
      · exact hdisj n' (by simp [hm]) h1
      · have hn' : n' = n := by simpa using h1
        exact (List.nodup_cons.1 h0).1 (hn' ▸ hm)
    rw [ih n hinv' hshape' hdisj']
    have hmassage : (accDoc ++ [(n, sec)]) ++ doc' = accDoc ++ (n, sec) :: doc' := by
      simp
    rw [hmassage]

theorem renderLines_no_newline {doc : Sections} (hinv : docInv doc) :
    ∀ l ∈ renderLines doc, '\n' ∉ l := by
  intro l hl
  rw [renderLines, List.mem_flatten] at hl
  obtain ⟨ls, hls, hlin⟩ := hl
  rw [List.mem_map] at hls
  obtain ⟨ns, hns, hf⟩ := hls
  obtain ⟨n, sec⟩ := ns
  have hnsInv := hinv.2 (n, sec) hns
  rw [← hf] at hlin
  rcases List.mem_cons.1 hlin with h1 | h1
  · rw [h1]
    intro hmem
    rcases List.mem_cons.1 hmem with h2 | h2
    · cases h2
    · rcases List.mem_append.1 h2 with h3 | h3
      · exact hnsInv.1.1 h3
      · simp at h3
  · rw [List.mem_map] at h1
    obtain ⟨kv, hkv, hpl⟩ := h1
    have hkvOK := hnsInv.2.2 kv hkv
    rw [← hpl]
    intro hmem
    rcases List.mem_append.1 hmem with h3 | h3
    · exact hkvOK.1 h3
    · rcases List.mem_cons.1 h3 with h4 | h4
      · cases h4
      · rcases List.mem_cons.1 h4 with h5 | h5
        · cases h5
        · rcases List.mem_cons.1 h5 with h6 | h6
          · cases h6
          · exact hkvOK.2.1 h6

/-! The claims. -/

/-- C1, counterexample: the round-trip property as stated is false.  The
text consisting of the single header line open-bracket space close-bracket
parses without error to a document with one section, whose name is the
empty string; serializing that document yields the two-character header
with a newline, and re-parsing the serialized text fails with the
EmptySectionName error instead of reproducing the document. -/
theorem c1_round_trip_counterexample :
    parse ['[', ' ', ']'] = .ok [([], [])] ∧
    render (some [([], [])]) = .ok ['[', ']', '\n'] ∧
    parse ['[', ']', '\n'] = .fail [] .emptySectionName := by
  decide

/-- C1, amended: for every text that parses without error to a document
with at least one section, if no section name is empty and no section name
contains a bracket character, then String() succeeds and re-parsing its
output reproduces the document exactly — in particular the section-name
set and every key's value agree.  (Degenerate headers such as the
whitespace-only bracket pair are exactly how the excluded names arise.) -/
theorem c1_round_trip_amended {t : GoStr} {doc : Sections}
    (hp : parse t = .ok doc) (hne : doc ≠ [])
    (hnames : ∀ ns ∈ doc, ns.1 ≠ [] ∧ '[' ∉ ns.1 ∧ ']' ∉ ns.1) :
    render (some doc) = .ok (renderDoc doc) ∧
      parse (renderDoc doc) = .ok doc := by
  have hp' : parseLines (splitLines t) [] [] = .ok doc := hp
  have hinv : docInv doc :=
    parseLines_ok_inv docInv_nil
      (fun l hl => mem_splitLines_no_newline hl) hp'
  constructor
  · simp [render, hne]
  · show parseLines (splitLines (renderDoc doc)) [] [] = .ok doc
    rw [renderDoc_eq_lines, splitLines_flat (renderLines_no_newline hinv)]
    have hnames' : ∀ n ∈ doc.map Prod.fst, n ≠ [] ∧ '[' ∉ n ∧ ']' ∉ n := by
      intro n hn
      rw [List.mem_map] at hn
      obtain ⟨ns, hns, hfst⟩ := hn
      rw [← hfst]
      exact hnames ns hns
    have := @parse_render_sections doc [] [] hinv hnames' (by simp)
    rw [this]
    rfl

/-- C1, witness: the amended round trip evaluated on a concrete two-line
text with one section and one property. -/
theorem c1_round_trip_witness :
    parse ['[', 'o', 'w', 'n', 'e', 'r', ']', '\n',
        'n', 'a', 'm', 'e', ' ', '=', ' ', 'x'] =
      .ok [(['o', 'w', 'n', 'e', 'r'], [(['n', 'a', 'm', 'e'], ['x'])])] ∧
    (render (some [(['o', 'w', 'n', 'e', 'r'],
        [(['n', 'a', 'm', 'e'], ['x'])])]) =
      .ok (renderDoc [(['o', 'w', 'n', 'e', 'r'],
        [(['n', 'a', 'm', 'e'], ['x'])])]) ∧
     parse (renderDoc [(['o', 'w', 'n', 'e', 'r'],
        [(['n', 'a', 'm', 'e'], ['x'])])]) =
      .ok [(['o', 'w', 'n', 'e', 'r'], [(['n', 'a', 'm', 'e'], ['x'])])]) :=
  ⟨by decide, @c1_round_trip_amended
    ['[', 'o', 'w', 'n', 'e', 'r', ']', '\n',
        'n', 'a', 'm', 'e', ' ', '=', ' ', 'x']
    [(['o', 'w', 'n', 'e', 'r'], [(['n', 'a', 'm', 'e'], ['x'])])]
    (by decide) (by decide) (by decide)⟩

/-- C2: the classifier handles each of the five categories in priority
order on concrete lines — a line starting with the comment character but
holding exactly one separator is a property, a line with four separators
is unsupported — but on a non-empty line of only whitespace the classifier
performs an out-of-range access (modelled as none) instead of returning a
category, so it is not total as the claim states. -/
theorem c2_classifier_on_concrete_lines :
    lineType [] = some .emptyLine ∧
    lineType ['[', 's', ']'] = some .sectionLine ∧
    lineType [';', 'a', '=', 'b'] = some .propertyLine ∧
    lineType [';', 'c'] = some .commentLine ∧
    lineType ['n', 'a', 'm', 'e', '=', '=', '=', '=', 'v'] =
      some .unsportedLine ∧
    lineType [' ', ' '] = none := by
  decide

/-- C3: the parser is fail-fast.  First, an error result absorbs any list
of further lines: no line after the error has any effect.  Second, every
error is produced at the first erroneous line: the failing run splits into
a prefix that parses without error to exactly the partial document
returned, followed by the line whose processing yields the error. -/
theorem c3_fail_fast :
    (∀ (ls ls' : List GoStr) (cur : GoStr) (doc doc' : Sections) (e : IniErr),
      parseLines ls cur doc = .fail doc' e →
      parseLines (ls ++ ls') cur doc = .fail doc' e) ∧
    (∀ (ls : List GoStr) (cur : GoStr) (doc doc' : Sections) (e : IniErr),
      parseLines ls cur doc = .fail doc' e →
      ∃ pre line post, ls = pre ++ line :: post ∧
        parseLines pre cur doc = .ok doc' ∧
        parseLines (pre ++ [line]) cur doc = .fail doc' e) :=
  ⟨fun _ ls' _ _ _ _ h => parseLines_fail_append ls' h,
   fun _ _ _ _ _ h => parseLines_fail_first h⟩

/-- C3, witness: both fail-fast parts applied to a concrete run that fails
at its first line with the syntax error. -/
theorem c3_fail_fast_witness :
    parseLines ([['!']] ++ [['a', '=', 'b']]) [] [] =
      .fail [] .invalidLineErr ∧
    ∃ pre line post, ([['!'], ['a', '=', 'b']] : List GoStr) =
        pre ++ line :: post ∧
      parseLines pre [] [] = .ok [] ∧
      parseLines (pre ++ [line]) [] [] = .fail [] .invalidLineErr :=
  ⟨c3_fail_fast.1 [['!']] [['a', '=', 'b']] [] [] [] .invalidLineErr
      (by decide),
   c3_fail_fast.2 [['!'], ['a', '=', 'b']] [] [] [] .invalidLineErr
      (by decide)⟩

/-- C4: a well-formed property line that appears after only blank and
comment lines, before any section header, makes the whole parse fail with
the GlobalProperty error and an empty partial document; and after a
successful parse every stored pair belongs to a section, witnessed by Get
returning the value through the pair's section name. -/
theorem c4_global_property :
    (∀ (pre : List GoStr) (line : GoStr) (post : List GoStr) (k v : GoStr),
      (∀ l ∈ pre, lineType l = some .emptyLine ∨
        lineType l = some .commentLine) →
      lineType line = some .propertyLine →
      parseProperity line = .ok (k, v) →
      parseLines (pre ++ line :: post) [] [] = .fail [] .globalProperity) ∧
    (∀ (t : GoStr) (doc : Sections) (n : GoStr) (sec : Section) (k v : GoStr),
      parse t = .ok doc → assocFind n doc = some sec →
      assocFind k sec = some v → get (some doc) n k = .ok v) := by
  constructor
  · intro pre line post k v hpre hlt hpp
    rw [parseLines_skip _ hpre]
    exact parseLines_step_prop_global post [] hlt hpp
  · intro t doc n sec k v _ h1 h2
    simp [get, h1, h2]

/-- C4, witness: the global-property failure on a comment line followed by
a property line, and the membership part on a one-section document. -/
theorem c4_global_property_witness :
    parseLines ([[';', 'c']] ++ ['a', '=', '1'] :: []) [] [] =
      .fail [] .globalProperity ∧
    get (some [(['s'], [(['a'], ['1'])])]) ['s'] ['a'] = .ok ['1'] :=
  ⟨c4_global_property.1 [[';', 'c']] ['a', '=', '1'] [] ['a'] ['1']
      (by decide) (by decide) (by decide),
   c4_global_property.2 ['[', 's', ']', '\n', 'a', '=', '1']
      [(['s'], [(['a'], ['1'])])] ['s'] [(['a'], ['1'])] ['a'] ['1']
      (by decide) (by decide) (by decide)⟩

/-- C5, counterexample: the claim says a whitespace-only key substring
fails with EmptyKey, but the decoder tests emptiness of the raw substring
before trimming: three spaces before the separator decode to the empty
key with no error, and a parse stores that empty key. -/
theorem c5_empty_key_counterexample :
    parseProperity [' ', ' ', ' ', '=', 'v', 'a', 'l', 'u', 'e'] =
      .ok ([], ['v', 'a', 'l', 'u', 'e']) ∧
    parse ['[', 's', ']', '\n', ' ', ' ', ' ', '=', 'v'] =
      .ok [(['s'], [([], ['v'])])] := by
  decide

/-- C5, amended: splitting at the first separator, the decoder fails with
EmptyKey exactly when the substring before the separator has length zero
(the separator is the first character); otherwise it returns the trimmed
key — which is empty when that substring is all whitespace — and the
trimmed value. -/
theorem c5_empty_key_amended {a : GoStr} (b : GoStr) (h : '=' ∉ a) :
    parseProperity (a ++ '=' :: b) =
      if a = [] then .error .emptyKey
      else .ok (trimSpace a, trimSpace b) :=
  parseProperity_split b h

/-- C5, witness: the amended decoder behaviour on the whitespace-only key
line. -/
theorem c5_empty_key_witness :
    parseProperity ([' ', ' '] ++ '=' :: ['v']) =
      (if ([' ', ' '] : GoStr) = [] then .error .emptyKey
       else .ok (trimSpace [' ', ' '], trimSpace ['v'])) :=
  c5_empty_key_amended ['v'] (by decide)

/-- C6, counterexample: the claim says every whitespace-only bracket pair
fails with EmptySectionName, but the decoder only tests raw length two:
the three-character header of bracket space bracket decodes to the empty
name with no error, and parsing the five-character whitespace header
succeeds, installing a section named by the empty string. -/
theorem c6_empty_section_counterexample :
    parseSection ['[', ' ', ']'] = .ok [] ∧
    parse ['[', ' ', ' ', ' ', ']'] = .ok [([], [])] := by
  decide

/-- C6, amended: the section decoder fails with EmptySectionName exactly
when the raw header line has length two (the empty bracket pair), so
parsing a text containing the empty pair fails as claimed, while headers
whose brackets contain only whitespace and have a different raw length
decode to the empty name without error. -/
theorem c6_empty_section_amended :
    (∀ line : GoStr, parseSection line = .error .emptySectionName ↔
      line.length = 2) ∧
    parse ['[', ']', '\n', 'n', '=', 'v'] = .fail [] .emptySectionName ∧
    parse ['[', ' ', ']'] = .ok [([], [])] := by
  refine ⟨?_, by decide, by decide⟩
  intro line
  unfold parseSection
  by_cases h : line.length = 2
  · simp [h]
  · simp [h]

/-- C6, witness: the amended characterization applied to the length-two
header. -/
theorem c6_empty_section_witness :
    parseSection ['[', ']'] = .error .emptySectionName :=
  (c6_empty_section_amended.1 ['[', ']']).2 (by decide)

/-- C7: Get and Set fail with NullReference on the uninitialized handle,
with SectionNotExist when the section is absent, with KeyNotExist when the
key is absent; otherwise Get returns the stored value and Set overwrites
it in place.  Set succeeds exactly when section and key both exist, and a
successful Set preserves the section-name list and every section's key
list — it never creates a section or key. -/
theorem c7_get_set :
    (∀ (n k v : GoStr), get none n k = .error .nullReference ∧
      set none n k v = .error .nullReference) ∧
    (∀ (doc : Sections) (n k v : GoStr), assocFind n doc = none →
      get (some doc) n k = .error .sectionNotExist ∧
      set (some doc) n k v = .error .sectionNotExist) ∧
    (∀ (doc : Sections) (n k v : GoStr) (sec : Section),
      assocFind n doc = some sec → assocFind k sec = none →
      get (some doc) n k = .error .keyNotExist ∧
      set (some doc) n k v = .error .keyNotExist) ∧
    (∀ (doc : Sections) (n k v w : GoStr) (sec : Section),
      assocFind n doc = some sec → assocFind k sec = some w →
      get (some doc) n k = .ok w ∧
      set (some doc) n k v = .ok (assocSet n (assocSet k v sec) doc) ∧
      get (some (assocSet n (assocSet k v sec) doc)) n k = .ok v) ∧
    (∀ (doc doc' : Sections) (n k v : GoStr),
      set (some doc) n k v = .ok doc' →
      (∃ sec, assocFind n doc = some sec ∧ assocFind k sec ≠ none) ∧
      doc'.map Prod.fst = doc.map Prod.fst ∧
      ∀ n', Option.map (List.map Prod.fst) (assocFind n' doc') =
        Option.map (List.map Prod.fst) (assocFind n' doc)) := by
  refine ⟨?_, ?_, ?_, ?_, ?_⟩
  · intro n k v
    exact ⟨rfl, rfl⟩
  · intro doc n k v h
    constructor
    · simp [get, h]
    · simp [set, h]
  · intro doc n k v sec h1 h2
    constructor
    · simp [get, h1, h2]
    · simp [set, h1, h2]
  · intro doc n k v w sec h1 h2
    refine ⟨by simp [get, h1, h2], by simp [set, h1, h2], ?_⟩
    simp [get, assocFind_assocSet_self]
  · intro doc doc' n k v h
    cases h1 : assocFind n doc with
    | none =>
      rw [(by simp [set, h1] : set (some doc) n k v =
        .error .sectionNotExist)] at h
      cases h
    | some sec =>
      cases h2 : assocFind k sec with
      | none =>
        rw [(by simp [set, h1, h2] : set (some doc) n k v =
          .error .keyNotExist)] at h
        cases h
      | some w =>
        have hdoc' : doc' = assocSet n (assocSet k v sec) doc := by
          have h3 : set (some doc) n k v =
              .ok (assocSet n (assocSet k v sec) doc) := by
            simp [set, h1, h2]
          rw [h3] at h
          cases h
          rfl
        subst hdoc'
        have hnmem : n ∈ doc.map Prod.fst := by
          rw [List.mem_map]
          exact ⟨(n, sec), assocFind_mem h1, rfl⟩
        have hkmem : k ∈ sec.map Prod.fst := by
          rw [List.mem_map]
          exact ⟨(k, w), assocFind_mem h2, rfl⟩
        refine ⟨⟨sec, rfl, by simp [h2]⟩, assocSet_keys_mem _ hnmem, ?_⟩
        intro n'
        by_cases hn' : n' = n
        · subst hn'
          rw [assocFind_assocSet_self, h1]
          simp [assocSet_keys_mem _ hkmem]
        · rw [assocFind_assocSet_ne _ _ hn']

/-- C7, witness: the accessor contract evaluated on a one-section,
one-key document, covering the success, overwrite, missing-section and
missing-key cases through the main theorem. -/
theorem c7_get_set_witness :
    get (some [(['s'], [(['k'], ['o'])])]) ['s'] ['k'] = .ok ['o'] ∧
    set (some [(['s'], [(['k'], ['o'])])]) ['s'] ['k'] ['w'] =
      .ok [(['s'], [(['k'], ['w'])])] ∧
    get (some [(['s'], [(['k'], ['o'])])]) ['x'] ['k'] =
      .error .sectionNotExist ∧
    get (some [(['s'], [(['k'], ['o'])])]) ['s'] ['z'] =
      .error .keyNotExist := by
  refine ⟨?_, ?_, ?_, ?_⟩
  · exact (c7_get_set.2.2.2.1 [(['s'], [(['k'], ['o'])])] ['s'] ['k'] ['w']
      ['o'] [(['k'], ['o'])] (by decide) (by decide)).1
  · have h := (c7_get_set.2.2.2.1 [(['s'], [(['k'], ['o'])])] ['s'] ['k']
      ['w'] ['o'] [(['k'], ['o'])] (by decide) (by decide)).2.1
    rw [h]
    decide
  · exact (c7_get_set.2.1 [(['s'], [(['k'], ['o'])])] ['x'] ['k'] ['q', 'q']
      (by decide)).1
  · exact (c7_get_set.2.2.1 [(['s'], [(['k'], ['o'])])] ['s'] ['z']
      ['q', 'q'] [(['k'], ['o'])] (by decide) (by decide)).1

/-- C8: whitespace invariance on the claimed inputs.  The three header
spellings with surrounding spaces inside the brackets all parse to the
single section named owner, and the three property spellings all parse to
the key name with value x inside that section. -/
theorem c8_whitespace_invariance :
    parse ['[', 'o', 'w', 'n', 'e', 'r', ' ', ' ', ' ', ']'] =
      .ok [(['o', 'w', 'n', 'e', 'r'], [])] ∧
    parse ['[', ' ', ' ', ' ', 'o', 'w', 'n', 'e', 'r', ']'] =
      .ok [(['o', 'w', 'n', 'e', 'r'], [])] ∧
    parse ['[', ' ', ' ', 'o', 'w', 'n', 'e', 'r', ' ', ' ', ']'] =
      .ok [(['o', 'w', 'n', 'e', 'r'], [])] ∧
    parse ['[', 'o', 'w', 'n', 'e', 'r', ']', '\n',
        'n', 'a', 'm', 'e', ' ', '=', ' ', 'x'] =
      .ok [(['o', 'w', 'n', 'e', 'r'], [(['n', 'a', 'm', 'e'], ['x'])])] ∧
    parse ['[', 'o', 'w', 'n', 'e', 'r', ']', '\n',
        'n', 'a', 'm', 'e', ' ', ' ', ' ', '=', 'x'] =
      .ok [(['o', 'w', 'n', 'e', 'r'], [(['n', 'a', 'm', 'e'], ['x'])])] ∧
    parse ['[', 'o', 'w', 'n', 'e', 'r', ']', '\n',
        ' ', ' ', ' ', 'n', 'a', 'm', 'e', '=', 'x', ' ', ' ', ' '] =
      .ok [(['o', 'w', 'n', 'e', 'r'], [(['n', 'a', 'm', 'e'], ['x'])])] := by
  decide

/-- C9: a duplicate section header resets its section.  Concretely, two
headers with the same name leave only the properties after the second
occurrence.  In general a successfully decoded header installs an empty
entry for the name (replacing any previous one), and the parse loop keeps
the section-name list free of duplicates in every returned document, both
on success and alongside an error. -/
theorem c9_duplicate_sections :
    parse ['[', 's', ']', '\n', 'a', '=', '1', '\n',
        '[', 's', ']', '\n', 'b', '=', '2'] =
      .ok [(['s'], [(['b'], ['2'])])] ∧
    (∀ (line : GoStr) (rest : List GoStr) (cur name : GoStr)
        (doc : Sections),
      lineType line = some .sectionLine → parseSection line = .ok name →
      parseLines (line :: rest) cur doc =
        parseLines rest name (assocSet name [] doc) ∧
      assocFind name (assocSet name [] doc) = some []) ∧
    (∀ (ls : List GoStr) (cur : GoStr) (doc doc' : Sections),
      (doc.map Prod.fst).Nodup →
      resultDoc (parseLines ls cur doc) = some doc' →
      (doc'.map Prod.fst).Nodup) := by
  refine ⟨by decide, ?_, ?_⟩
  · intro line rest cur name doc h1 h2
    exact ⟨parseLines_step_section_ok rest cur doc h1 h2,
      assocFind_assocSet_self _ _ _⟩
  · intro ls cur doc doc' h1 h2
    exact parseLines_nodup h1 h2

/-- C9, witness: the fresh-entry equation on a concrete header line, and
the duplicate-free name list of a concrete parse. -/
theorem c9_duplicate_sections_witness :
    (parseLines [['[', 's', ']'], ['b', '=', '2']] [] [] =
      parseLines [['b', '=', '2']] ['s'] (assocSet ['s'] [] []) ∧
     assocFind ['s'] (assocSet ['s'] [] ([] : Sections)) = some []) ∧
    (([(['s'], [(['b'], ['2'])])] : Sections).map Prod.fst).Nodup :=
  ⟨c9_duplicate_sections.2.1 ['[', 's', ']'] [['b', '=', '2']] [] ['s'] []
      (by decide) (by decide),
   c9_duplicate_sections.2.2 [['[', 's', ']'], ['b', '=', '2']] [] []
      [(['s'], [(['b'], ['2'])])] (by decide) (by decide)⟩

/-- C10: the classifier is not total, contradicting the claim: on a
non-empty line of only whitespace, isSection trims the line to the empty
string and indexes its first character, an out-of-range abort in Go
(modelled as none), so lineType returns no category and parse returns no
result at all on such inputs — even when they follow valid lines. -/
theorem c10_classifier_crash_on_whitespace :
    isSection [' ', ' ', ' '] = none ∧
    lineType [' ', ' ', ' '] = none ∧
    parse [' ', ' ', ' '] = .crash ∧
    parse ['[', 's', ']', '\n', '\t'] = .crash := by
  decide

end Ini
